import Mathlib

/-!
Verification of the inetda prefix-matching core (src/ipm.py, src/ipfind.py).

The development shallowly embeds the Python code: IPv4/IPv6 networks become a
`Net` record (family, integer address, prefix length), the mutable node-linked
trie becomes the inductive `IPTreeNode`, generators become lists, and Python
exceptions (`KeyError`, `TypeError`, ...) become `Except String` results.
Every definition is translated from the source; stdlib address parsing
(`ipaddress.ip_network` on strings) is abstracted as a `String → Option Net`
parameter, since it is an external collaborator of the row readers.
-/

/-! ## Bit extraction (IPTree._bits)

Python source:
```
def _bits(self, abytes, limit=None):
    if limit == None:
      limit = 32 if self.ipv == 4 else 128
    i = 0
    for byte in abytes:
      for _ in range(8):
        yield bool(0b10000000 & byte)
        byte = byte << 1
        i += 1
        if i >= limit:
          return
```
The two nested loops with the early `return` are encoded as two structural
recursions: `bitsInByte` is the inner 8-step loop over one byte (returning
the emitted bits, the updated counter `i`, and whether the generator
returned), `bitsGo` is the outer loop over the byte string.  Note the source
checks `i >= limit` only after yielding, so `limit = 0` still emits one bit.
-/

def bitsInByte (limit : Nat) : Nat → Nat → Nat → List Bool × Nat × Bool
  | _, 0, i => ([], i, false)
  | byte, k + 1, i =>
      if i + 1 ≥ limit then ([Nat.testBit byte 7], i + 1, true)
      else
        let r := bitsInByte limit (byte <<< 1) k (i + 1)
        (Nat.testBit byte 7 :: r.1, r.2.1, r.2.2)

def bitsGo (limit : Nat) : List Nat → Nat → List Bool
  | [], _ => []
  | b :: rs, i =>
      let r := bitsInByte limit b 8 i
      if r.2.2 then r.1 else r.1 ++ bitsGo limit rs r.2.1

/-- `IPTree._bits(abytes, limit)` as a list (the full generator output). -/
def ipmBits (abytes : List Nat) (limit : Nat) : List Bool :=
  bitsGo limit abytes 0

/-- The 8 bits of one byte, most significant first (reference stream). -/
def byteMSBits : Nat → Nat → List Bool
  | _, 0 => []
  | byte, k + 1 => Nat.testBit byte 7 :: byteMSBits (byte <<< 1) k

/-- The unbounded MSB-first bit stream of a byte string (reference stream). -/
def bytesToBits : List Nat → List Bool
  | [] => []
  | b :: rest => byteMSBits b 8 ++ bytesToBits rest

/-- MSB-first `w`-bit expansion of a natural number. -/
def bitsOfNat (w x : Nat) : List Bool :=
  (List.range w).map (fun j => Nat.testBit x (w - 1 - j))

instance {ε σ : Type} [DecidableEq ε] [DecidableEq σ] : DecidableEq (Except ε σ)
  | .error a, .error b =>
      if h : a = b then .isTrue (by rw [h])
      else .isFalse (fun hc => h (Except.error.inj hc))
  | .error _, .ok _ => .isFalse (fun hc => nomatch hc)
  | .ok _, .error _ => .isFalse (fun hc => nomatch hc)
  | .ok a, .ok b =>
      if h : a = b then .isTrue (by rw [h])
      else .isFalse (fun hc => h (Except.ok.inj hc))

/-! ## Network keys

`ipaddress.IPv4Network`/`IPv6Network` objects: an address family, the integer
value of the (normalized) network address, and a prefix length.  `packed` is
the big-endian byte string `network_address.packed`. -/

structure Net where
  version : Nat
  addr : Nat
  plen : Nat
deriving DecidableEq

/-- Address width per family: `32 if self.ipv == 4 else 128`. -/
def netWidth (v : Nat) : Nat := if v = 4 then 32 else 128

/-- Big-endian byte string of `x`, `k` bytes long. -/
def bytesOf : Nat → Nat → List Nat
  | 0, _ => []
  | k + 1, x => bytesOf k (x / 256) ++ [x % 256]

def Net.packed (n : Net) : List Nat := bytesOf (netWidth n.version / 8) n.addr

/-- Bits fed to `traverse` for a network key: `_bits(packed, prefixlen)`. -/
def netBits (n : Net) : List Bool := ipmBits n.packed n.plen

/-- Bits fed to `traverse` for a bare address: `_bits(packed)` (full width). -/
def addrBits (n : Net) : List Bool := ipmBits n.packed (netWidth n.version)

/-- `IPv4Network.num_addresses`: the size of the prefix. -/
def Net.numAddresses (n : Net) : Nat := 2 ^ (netWidth n.version - n.plen)

/-- `broadcast_address`: `int(network_address) | int(hostmask)`. -/
def Net.bcast (n : Net) : Nat :=
  n.addr ||| (2 ^ (netWidth n.version - n.plen) - 1)

/-- `ipaddress._is_subnet_of(a, b)` (i.e. `a.subnet_of(b)`): raises
`TypeError` when the families differ, otherwise compares the address
intervals. -/
def subnetOf (a b : Net) : Except String Bool :=
  if a.version ≠ b.version then .error "TypeError"
  else .ok (decide (b.addr ≤ a.addr) && decide (a.bcast ≤ b.bcast))

/-- Well-formedness guaranteed by `ipaddress` object construction: a family
tag of 4 or 6, a prefix length within the width, an address within the width,
and no host bits set (networks are normalized, strict parsing). -/
def Net.WF (n : Net) : Prop :=
  (n.version = 4 ∨ n.version = 6) ∧ n.plen ≤ netWidth n.version ∧
    n.addr < 2 ^ netWidth n.version ∧
    n.addr % 2 ^ (netWidth n.version - n.plen) = 0

instance (n : Net) : Decidable n.WF := by
  unfold Net.WF; exact inferInstance

/-! ## The binary prefix trie (IPTree) -/

/-- `IPTree.IPTreeNode`: two optional children, an optional stored key and an
optional stored value. -/
inductive IPTreeNode (α : Type) : Type where
  | mk (zero : Option (IPTreeNode α)) (one : Option (IPTreeNode α))
       (key : Option Net) (value : Option α)

variable {α β ρ : Type}

def IPTreeNode.zero : IPTreeNode α → Option (IPTreeNode α)
  | .mk z _ _ _ => z

def IPTreeNode.one : IPTreeNode α → Option (IPTreeNode α)
  | .mk _ o _ _ => o

def IPTreeNode.key : IPTreeNode α → Option Net
  | .mk _ _ k _ => k

def IPTreeNode.value : IPTreeNode α → Option α
  | .mk _ _ _ v => v

/-- The child reached by one bit (`point.one` / `point.zero`). -/
def IPTreeNode.child (t : IPTreeNode α) (b : Bool) : Option (IPTreeNode α) :=
  if b then t.one else t.zero

def IPTreeNode.setChild (t : IPTreeNode α) (b : Bool)
    (c : Option (IPTreeNode α)) : IPTreeNode α :=
  match t with
  | .mk z o k v => if b then .mk z c k v else .mk c o k v

def IPTreeNode.withValue : IPTreeNode α → Option α → IPTreeNode α
  | .mk z o k _, v => .mk z o k v

/-- A fresh `IPTreeNode()`. -/
def emptyNode : IPTreeNode α := .mk none none none none

/-- `IPTree.traverse(key, create_nodes=False)`: the list of nodes visited on
the path given by the key bits, stopping early at a missing child. -/
def traversePath : IPTreeNode α → List Bool → List (IPTreeNode α)
  | _, [] => []
  | t, b :: bs =>
    match t.child b with
    | none => []
    | some c => c :: traversePath c bs

/-- The node at the end of a bit path, if the whole path exists
(`nodeAt t [] = root`). -/
def nodeAt : IPTreeNode α → List Bool → Option (IPTreeNode α)
  | t, [] => some t
  | t, b :: bs =>
    match t.child b with
    | none => none
    | some c => nodeAt c bs

/-- The walk of `IPTree.__setitem__`: `traverse(key, create_nodes=True)`
followed by `point.key = key; point.value = value` on the final node.  The
assignment replaces whatever key/value the node held.  (On an empty bit list
the Python loop variable would be unbound and a `NameError` raised; that case
is unreachable because packed addresses are nonempty byte strings, so `_bits`
always yields at least one bit.) -/
def insertAt : IPTreeNode α → List Bool → Net → α → IPTreeNode α
  | .mk z o _ _, [], key, val => .mk z o (some key) (some val)
  | t, b :: bs, key, val =>
      t.setChild b (some (insertAt ((t.child b).getD emptyNode) bs key val))

/-- `IPTree.__setitem__(key, value)`. -/
def setItem (t : IPTreeNode α) (k : Net) (v : α) : IPTreeNode α :=
  insertAt t (netBits k) k v

/-- `IPTree.findExact(key)`: the first visited node whose stored key equals
`key`; `none` models the `KeyError`. -/
def findExact (t : IPTreeNode α) (k : Net) : Option (IPTreeNode α) :=
  (traversePath t (netBits k)).find? (fun p => decide (p.key = some k))

/-- `IPTree.lookupExact` (`__getitem__`): the stored value slot of the exact
node; `.error` models the `KeyError`. -/
def lookupExact (t : IPTreeNode α) (k : Net) : Except String (Option α) :=
  match findExact t k with
  | some p => .ok p.value
  | none => .error "KeyError"

/-- `IPTree.__contains__`. -/
def containsKey (t : IPTreeNode α) (k : Net) : Bool :=
  (findExact t k).isSome

/-- `IPTree.findLongestPrefix(key)` on an explicit bit path: the running
`bestpoint` fold over the visited nodes. -/
def findLongestPfx (t : IPTreeNode α) (bs : List Bool) : Option (IPTreeNode α) :=
  (traversePath t bs).foldl
    (fun bestpoint point => if point.value.isSome then some point else bestpoint)
    none

/-- `IPTree.lookupLongestPrefix`: `.error` models the `KeyError` raise. -/
def lookupLongestPfx (t : IPTreeNode α) (bs : List Bool) :
    Except String (Option α) :=
  match findLongestPfx t bs with
  | some best => .ok best.value
  | none => .error "KeyError"

/-- `IPTree.findAll(key)`: the visited nodes carrying a value, in
root-to-target order. -/
def findAll (t : IPTreeNode α) (bs : List Bool) : List (IPTreeNode α) :=
  (traversePath t bs).filter (fun p => p.value.isSome)

/-- `IPTree.lookupAll(key)`. -/
def lookupAll (t : IPTreeNode α) (bs : List Bool) : List (Option α) :=
  (findAll t bs).map (fun p => p.value)

/-! ## Dual-stack dispatch (`self.trees = { 4: IPTree(4), 6: IPTree(6) }`) -/

structure DualTrees (α : Type) : Type where
  t4 : IPTreeNode α
  t6 : IPTreeNode α

def DualTrees.get (d : DualTrees α) (v : Nat) : IPTreeNode α :=
  if v = 4 then d.t4 else d.t6

def DualTrees.set (d : DualTrees α) (v : Nat) (t : IPTreeNode α) : DualTrees α :=
  if v = 4 then { d with t4 := t } else { d with t6 := t }

def emptyDual : DualTrees α := ⟨emptyNode, emptyNode⟩

/-! ## Consumer-level insertion (RTSim.readRT / VRPS.readVRPS)

Both consumers run, per row:
```
if not a in self.trees[a.version]:
  self.trees[a.version][a] = <empty collection>
self.trees[a.version][a].<append/add>(r)
```
`tree[a]` is `lookupExact(a)`, which returns the collection object stored at
the first visited node whose key equals `a`; the append/add mutates that
node's collection in place.  `modifyFirstKey` is that in-place update: it
walks the key's bit path and rewrites the value of the first node whose
stored key equals `k`.  (If no such node is found Python would raise
`KeyError`; the callers guard with `__contains__`, so the unchanged-tree
fallback below is unreachable there.  A stored value of `None` would make
Python's `.append` raise `AttributeError`; `getD []` is likewise unreachable
because these callers only ever store collections.) -/

def modifyFirstKey (k : Net) (f : Option α → Option α) :
    IPTreeNode α → List Bool → IPTreeNode α
  | t, [] => t
  | t, b :: bs =>
    match t.child b with
    | none => t
    | some c =>
      if c.key = some k then t.setChild b (some (c.withValue (f c.value)))
      else t.setChild b (some (modifyFirstKey k f c bs))

/-- One row of `RTSim.readRT`: list-append accumulation. -/
def rtInsertTree (t : IPTreeNode (List ρ)) (a : Net) (r : ρ) :
    IPTreeNode (List ρ) :=
  let t1 := if containsKey t a then t else setItem t a ([] : List ρ)
  modifyFirstKey a (fun v => some (v.getD [] ++ [r])) t1 (netBits a)

def rtInsert (d : DualTrees (List ρ)) (a : Net) (r : ρ) : DualTrees (List ρ) :=
  d.set a.version (rtInsertTree (d.get a.version) a r)

/-- `RTSim.readRT` over already-parsed rows. -/
def readRT (d : DualTrees (List ρ)) (rows : List (Net × ρ)) :
    DualTrees (List ρ) :=
  rows.foldl (fun d ar => rtInsert d ar.1 ar.2) d

/-- `RTSim.matchIP(ipa)`: longest-prefix lookup on the family's tree. -/
def matchIP (d : DualTrees (List ρ)) (ipa : Net) : Except String (Option (List ρ)) :=
  lookupLongestPfx (d.get ipa.version) (addrBits ipa)

/-! ## VRP matching (VRPS) -/

/-- A VRP row `(prefix, maxlen, asn, rir)`. -/
structure VRP where
  pfx : Net
  ml : Nat
  asn : String
  rir : String
deriving DecidableEq

/-- Python `set.add` on a set modelled as a duplicate-free list. -/
def setAdd (s : List VRP) (t : VRP) : List VRP :=
  if t ∈ s then s else s ++ [t]

/-- One row of `VRPS.readVRPS`: set accumulation at the prefix's node. -/
def vrpsInsertTree (t : IPTreeNode (List VRP)) (v : VRP) :
    IPTreeNode (List VRP) :=
  let t1 := if containsKey t v.pfx then t else setItem t v.pfx ([] : List VRP)
  modifyFirstKey v.pfx (fun s => some (setAdd (s.getD []) v)) t1 (netBits v.pfx)

def readVRPSRows (d : DualTrees (List VRP)) (vs : List VRP) :
    DualTrees (List VRP) :=
  vs.foldl (fun d v => d.set v.pfx.version (vrpsInsertTree (d.get v.pfx.version) v)) d

/-- `VRPS.matchPfx(inpfx)`: walk the announced prefix's path, and from every
visited node's stored tuple set keep the tuples passing the max-length test
`inpfx.prefixlen <= ml or inpfx.num_addresses == 1`. -/
def matchPfx (d : DualTrees (List VRP)) (inpfx : Net) : List VRP :=
  (traversePath (d.get inpfx.version) (netBits inpfx)).flatMap fun node =>
    (node.value.getD []).filter fun nv =>
      decide (inpfx.plen ≤ nv.ml) || decide (inpfx.numAddresses = 1)

/-! ## The linear prefix scanner (ipfind.IPFind) -/

/-- `IPFind.addToTable`: `self.table.update({k: v})` on an insertion-ordered
dict, modelled as an association list (replace in place, else append). -/
def addToTable (table : List (Net × β)) (k : Net) (v : β) : List (Net × β) :=
  if table.any (fun e => decide (e.1 = k)) then
    table.map (fun e => if e.1 = k then (k, v) else e)
  else table ++ [(k, v)]

def buildTable (entries : List (Net × β)) : List (Net × β) :=
  entries.foldl (fun tb e => addToTable tb e.1 e.2) []

/-- `IPFind.match(k)`: scan the table, keeping entries `p` with
`ipk.subnet_of(p)`; a family mismatch raises `TypeError` out of the scan. -/
def linMatch : List (Net × β) → Net → Except String (List (Net × β))
  | [], _ => .ok []
  | e :: rest, q => do
      let b ← subnetOf q e.1
      let r ← linMatch rest q
      pure (if b then e :: r else r)

/-- `IPFind.matchBest(k)`: fold the matches keeping the greatest prefix
length; starts from `(None, None)`. -/
def linMatchBest (table : List (Net × β)) (q : Net) :
    Except String (Option Net × Option β) :=
  (linMatch table q).map (List.foldl
    (fun best kv =>
      match best.1 with
      | none => (some kv.1, some kv.2)
      | some bk => if bk.plen < kv.1.plen then (some kv.1, some kv.2) else best)
    (none, none))

/-- `IPTree`-side bulk insertion used to compare the two strategies. -/
def buildTrie (entries : List (Net × β)) : IPTreeNode β :=
  entries.foldl (fun t e => setItem t e.1 e.2) emptyNode

/-! ## Python string helpers

`str.strip()` and `str.split(' ')` modelled structurally on the character
list of the string (the stdlib behavior on the inputs these readers see). -/

/-- Drop leading whitespace characters. -/
def dropWs : List Char → List Char
  | [] => []
  | c :: cs => if c.isWhitespace then dropWs cs else c :: cs

/-- `str.strip()`: drop leading and trailing whitespace. -/
def pyStrip (s : String) : String :=
  ⟨(dropWs (dropWs s.data).reverse).reverse⟩

/-- `s.split(' ', 1)[0]`: the text before the first space (the whole string
when it has no space). -/
def firstTok : List Char → List Char
  | [] => []
  | c :: cs => if c = ' ' then [] else c :: firstTok cs

/-- `s.split(' ')` (consecutive separators produce empty fields, as in
Python). -/
def splitSp : List Char → List Char → List String
  | cur, [] => [String.mk cur.reverse]
  | cur, c :: cs =>
      if c = ' ' then String.mk cur.reverse :: splitSp [] cs
      else splitSp (c :: cur) cs

/-! ## Row sources (VRPS._read_vrps, RTSim._read_csv, RTSim._read_linux_rt)

String-to-network parsing (`ipaddress.ip_network`) and `int()` are stdlib
collaborators, abstracted as `pn : String → Option Net` and
`pint : String → Option Nat`. -/

/-- One row of `VRPS._read_vrps`: `(ip_network(r[1]), int(r[2]), r[0], r[3])`,
`None` when any step raises (caught by `except: pass`). -/
def parseVrpsRow (pn : String → Option Net) (pint : String → Option Nat)
    (r : List String) : Option VRP :=
  match r[1]? with
  | none => none
  | some c1 =>
    match pn (pyStrip c1) with
    | none => none
    | some addr =>
      match r[2]? with
      | none => none
      | some c2 =>
        match pint (pyStrip c2) with
        | none => none
        | some ml =>
          match r[0]?, r[3]? with
          | some c0, some c3 => some ⟨addr, ml, pyStrip c0, pyStrip c3⟩
          | _, _ => none

/-- `VRPS._read_vrps`: malformed rows are skipped (`except: pass`). -/
def readVrpsFile (pn : String → Option Net) (pint : String → Option Nat)
    (rows : List (List String)) : List VRP :=
  rows.filterMap (parseVrpsRow pn pint)

/-- `RTSim._read_csv` inner loop: the first cell of a row that parses as a
network (remaining cells untried after the `break`). -/
def csvRowIP (pn : String → Option Net) : List String → Option Net
  | [] => none
  | c :: cs =>
    match pn (pyStrip c) with
    | some a => some a
    | none => csvRowIP pn cs

/-- `RTSim._read_csv`: rows with no parsable cell are skipped. -/
def readCsvFile (pn : String → Option Net) (rows : List (List String)) :
    List (Net × List String) :=
  rows.filterMap (fun r => (csvRowIP pn r).map (fun a => (a, r)))

/-- `guess_afi(l)` inside `_read_linux_rt`. -/
def guessAfi (pn : String → Option Net) (l : String) : Option Nat :=
  (splitSp [] l.data).findSome? (fun g => (pn g).map (fun dip => dip.version))

/-- One line of `RTSim._read_linux_rt`.  Unlike the CSV readers, the
surrounding `try: ... except: raise` re-raises, so any failure is an error. -/
def lrtLine (pn : String → Option Net) (l : String) :
    Except String (Net × String) :=
  let ls := pyStrip l
  let g0 := String.mk (firstTok ls.data)
  if g0 = "default" then
    match guessAfi pn ls with
    | some 4 => .ok (⟨4, 0, 0⟩, ls)
    | some 6 => .ok (⟨6, 0, 0⟩, ls)
    | _ => .error "RuntimeError"
  else
    match pn g0 with
    | some n => .ok (n, ls)
    | none => .error "ValueError"

/-- `RTSim._read_linux_rt`: the first failing line aborts the whole read. -/
def readLinuxRT (pn : String → Option Net) (ls : List String) :
    Except String (List (Net × String)) :=
  ls.mapM (lrtLine pn)

/-- Concrete stand-in for `ipaddress.ip_network` on the strings used in the
counterexamples (it fails on everything else, as the real parser fails on
non-address text). -/
def parseFx : String → Option Net := fun s =>
  if s = "10.0.0.0/8" then some ⟨4, 10 * 2 ^ 24, 8⟩ else none

/-! ## Derived path views of the trie (used by the lemmas below) -/

/-- The stored key of the node addressed by a bit path, if that node exists. -/
def keyAt (t : IPTreeNode α) (bs : List Bool) : Option Net :=
  (nodeAt t bs).bind (fun n => n.key)

/-- The stored value of the node addressed by a bit path, if that node exists. -/
def valAt (t : IPTreeNode α) (bs : List Bool) : Option α :=
  (nodeAt t bs).bind (fun n => n.value)

/-- Invariant of trees built through `__setitem__`: every stored key sits at
the node addressed by its own bit path. -/
def KeysAtOwnPath (t : IPTreeNode α) : Prop :=
  ∀ bs p, keyAt t bs = some p → bs = netBits p

/-- `traverse(key).find(key match)` on an explicit path (the body of
`findExact`). -/
def findOnPath (t : IPTreeNode α) (bs : List Bool) (k : Net) : Option (IPTreeNode α) :=
  (traversePath t bs).find? (fun p => decide (p.key = some k))

/-- Bulk `__setitem__` starting from an arbitrary tree. -/
def insertAll (t : IPTreeNode β) (entries : List (Net × β)) : IPTreeNode β :=
  entries.foldl (fun t e => setItem t e.1 e.2) t

/-- Bulk `readRT` row insertion into one tree. -/
def rtFold (t : IPTreeNode (List ρ)) (rows : List (Net × ρ)) : IPTreeNode (List ρ) :=
  rows.foldl (fun t ar => rtInsertTree t ar.1 ar.2) t

/-! ## Concrete fixtures (networks and rows used in concrete evaluations) -/

/-- 10.0.0.0/8. -/
def K10 : Net := ⟨4, 10 * 2 ^ 24, 8⟩

/-- 0.0.0.0/0, the IPv4 default route. -/
def dfl4 : Net := ⟨4, 0, 0⟩

/-- The address 128.0.0.1 (prefix length 32). -/
def addrB1 : Net := ⟨4, 128 * 2 ^ 24 + 1, 32⟩

/-- The address 10.0.0.1 (prefix length 32). -/
def addrA1 : Net := ⟨4, 10 * 2 ^ 24 + 1, 32⟩

/-- 128.0.0.0/1. -/
def half1 : Net := ⟨4, 128 * 2 ^ 24, 1⟩

/-- 10.0.0.0/16. -/
def pfx16 : Net := ⟨4, 10 * 2 ^ 24, 16⟩

/-- 10.0.0.0/24. -/
def pfx24 : Net := ⟨4, 10 * 2 ^ 24, 24⟩

/-- The VRP row (10.0.0.0/8, maxLength 16, AS1, rir1). -/
def vrp1 : VRP := ⟨K10, 16, "AS1", "rir1"⟩

/-- 192.168.0.0/16. -/
def n16 : Net := ⟨4, 192 * 2 ^ 24 + 168 * 2 ^ 16, 16⟩

/-- 192.168.1.0/24. -/
def n24 : Net := ⟨4, 192 * 2 ^ 24 + 168 * 2 ^ 16 + 2 ^ 8, 24⟩

/-- The address 192.168.1.5 (prefix length 32). -/
def a15 : Net := ⟨4, 192 * 2 ^ 24 + 168 * 2 ^ 16 + 2 ^ 8 + 5, 32⟩

/-- A one-address IPv6 network (::1/128). -/
def v6host : Net := ⟨6, 1, 128⟩

/-- An IPv6 prefix (::/8). -/
def v6pfx : Net := ⟨6, 0, 8⟩

/-! ## Lemmas: the bit extractor -/

theorem byteMSBits_length : ∀ (k byte : Nat), (byteMSBits byte k).length = k
  | 0, _ => rfl
  | k + 1, byte => by simp [byteMSBits, byteMSBits_length k]

theorem bytesToBits_append (l1 l2 : List Nat) :
    bytesToBits (l1 ++ l2) = bytesToBits l1 ++ bytesToBits l2 := by
  induction l1 with
  | nil => rfl
  | cons b rest ih => simp [bytesToBits, ih]

theorem byteMSBits_eq_map (k : Nat) (hk : k ≤ 8) : ∀ (byte : Nat),
    byteMSBits byte k = (List.range k).map (fun j => byte.testBit (7 - j)) := by
  induction k with
  | zero => intro byte; rfl
  | succ k ih =>
    intro byte
    rw [byteMSBits, List.range_succ_eq_map, List.map_cons,
      ih (by omega) (byte <<< 1), List.map_map]
    refine congrArg₂ _ rfl (List.map_congr_left fun j hj => ?_)
    have hj8 : j < k := List.mem_range.mp hj
    simp only [Function.comp, Nat.testBit_shiftLeft]
    have h1 : 7 - j ≥ 1 := by omega
    have h2 : 7 - j - 1 = 7 - Nat.succ j := by omega
    simp [h1, h2, Nat.succ_eq_add_one]

theorem byteMSBits_eq_bitsOfNat (byte : Nat) :
    byteMSBits byte 8 = bitsOfNat 8 byte := by
  rw [byteMSBits_eq_map 8 (by omega), bitsOfNat]

theorem bitsOfNat_length (w x : Nat) : (bitsOfNat w x).length = w := by
  simp [bitsOfNat]

theorem bitsOfNat_split (m n x : Nat) :
    bitsOfNat (m + n) x = bitsOfNat m (x / 2 ^ n) ++ bitsOfNat n (x % 2 ^ n) := by
  unfold bitsOfNat
  rw [List.range_add, List.map_append, List.map_map]
  refine congrArg₂ _ (List.map_congr_left fun j hj => ?_)
    (List.map_congr_left fun j hj => ?_)
  · have hjm : j < m := List.mem_range.mp hj
    rw [← Nat.shiftRight_eq_div_pow, Nat.testBit_shiftRight]
    congr 1
    omega
  · have hjn : j < n := List.mem_range.mp hj
    have hlt : n - 1 - j < n := by omega
    simp only [Function.comp, Nat.testBit_mod_two_pow, hlt, decide_True, Bool.true_and]
    congr 1
    omega

theorem bytesToBits_bytesOf : ∀ (k x : Nat),
    bytesToBits (bytesOf k x) = bitsOfNat (8 * k) x := by
  intro k
  induction k with
  | zero => intro x; rfl
  | succ k ih =>
    intro x
    have h8 : 8 * (k + 1) = 8 * k + 8 := by ring
    rw [bytesOf, bytesToBits_append, ih, h8, bitsOfNat_split]
    have h256 : (256 : Nat) = 2 ^ 8 := by norm_num
    rw [h256]
    simp [bytesToBits, byteMSBits_eq_bitsOfNat]

theorem bitsOfNat_take {k w : Nat} (hk : k ≤ w) (x : Nat) :
    (bitsOfNat w x).take k = bitsOfNat k (x / 2 ^ (w - k)) := by
  conv_lhs => rw [show w = k + (w - k) by omega, bitsOfNat_split]
  rw [List.take_left' (bitsOfNat_length _ _)]

theorem bitsOfNat_getElem (w x j : Nat) (hj : j < w) :
    (bitsOfNat w x)[j]? = some (x.testBit (w - 1 - j)) := by
  simp [bitsOfNat, List.getElem?_map, List.getElem?_range, hj]

theorem bitsOfNat_inj {w x y : Nat} (hx : x < 2 ^ w) (hy : y < 2 ^ w)
    (h : bitsOfNat w x = bitsOfNat w y) : x = y := by
  apply Nat.eq_of_testBit_eq
  intro i
  by_cases hi : i < w
  · have hj : w - 1 - i < w := by omega
    have h1 := bitsOfNat_getElem w x (w - 1 - i) hj
    have h2 := bitsOfNat_getElem w y (w - 1 - i) hj
    have hii : w - 1 - (w - 1 - i) = i := by omega
    rw [hii] at h1 h2
    have h3 : (bitsOfNat w x)[w - 1 - i]? = (bitsOfNat w y)[w - 1 - i]? := by rw [h]
    rw [h1, h2] at h3
    exact Option.some.inj h3
  · have h1 : x < 2 ^ i := lt_of_lt_of_le hx (Nat.pow_le_pow_right (by omega) (by omega))
    have h2 : y < 2 ^ i := lt_of_lt_of_le hy (Nat.pow_le_pow_right (by omega) (by omega))
    rw [Nat.testBit_lt_two_pow h1, Nat.testBit_lt_two_pow h2]

theorem bitsInByte_eq (limit : Nat) : ∀ (k byte i : Nat), i < limit →
    bitsInByte limit byte k i =
      (if i + k < limit then (byteMSBits byte k, i + k, false)
       else ((byteMSBits byte k).take (limit - i), limit, true)) := by
  intro k
  induction k with
  | zero =>
    intro byte i hi
    rw [if_pos (by omega)]
    simp [bitsInByte, byteMSBits]
  | succ k ih =>
    intro byte i hi
    rw [bitsInByte]
    by_cases h1 : i + 1 ≥ limit
    · rw [if_pos h1, if_neg (by omega)]
      have hli : limit - i = 1 := by omega
      have hlim : limit = i + 1 := by omega
      simp [byteMSBits, hli, hlim]
    · rw [if_neg h1, ih (byte <<< 1) (i + 1) (by omega)]
      by_cases h2 : i + 1 + k < limit
      · rw [if_pos h2, if_pos (by omega)]
        simp only [byteMSBits]
        refine congrArg₂ _ rfl ?_
        refine congrArg₂ _ (by omega) rfl
      · rw [if_neg h2, if_neg (by omega)]
        simp only [byteMSBits]
        have hsplit : limit - i = (limit - (i + 1)) + 1 := by omega
        rw [hsplit, List.take_succ_cons]

theorem bitsGo_eq (limit : Nat) : ∀ (rest : List Nat) (i : Nat), i < limit →
    bitsGo limit rest i = (bytesToBits rest).take (limit - i) := by
  intro rest
  induction rest with
  | nil => intro i _; simp [bitsGo, bytesToBits]
  | cons b rs ih =>
    intro i hi
    have hlen : (byteMSBits b 8).length = 8 := byteMSBits_length 8 b
    rw [bitsGo, bitsInByte_eq limit 8 b i hi]
    by_cases h8 : i + 8 < limit
    · rw [if_pos h8]
      show byteMSBits b 8 ++ bitsGo limit rs (i + 8) =
        List.take (limit - i) (bytesToBits (b :: rs))
      rw [ih (i + 8) (by omega), bytesToBits, List.take_append_eq_append_take]
      have h1 : (byteMSBits b 8).take (limit - i) = byteMSBits b 8 :=
        List.take_of_length_le (by rw [hlen]; omega)
      have h2 : limit - i - (byteMSBits b 8).length = limit - (i + 8) := by
        rw [hlen]; omega
      rw [h1, h2]
    · rw [if_neg h8]
      show List.take (limit - i) (byteMSBits b 8) =
        List.take (limit - i) (bytesToBits (b :: rs))
      rw [bytesToBits, List.take_append_of_le_length (by rw [hlen]; omega)]

theorem ipmBits_pos {limit : Nat} (h : 1 ≤ limit) (abytes : List Nat) :
    ipmBits abytes limit = (bytesToBits abytes).take limit := by
  have := bitsGo_eq limit abytes 0 (by omega)
  simpa [ipmBits] using this

theorem ipmBits_zero (abytes : List Nat) :
    ipmBits abytes 0 = (bytesToBits abytes).take 1 := by
  cases abytes with
  | nil => simp [ipmBits, bitsGo, bytesToBits]
  | cons b rs =>
    show bitsGo 0 (b :: rs) 0 = _
    rw [bitsGo, bitsInByte]
    simp [bytesToBits, byteMSBits]

/-! ## Lemmas: network keys -/

theorem netWidth_mul8 (v : Nat) : 8 * (netWidth v / 8) = netWidth v := by
  unfold netWidth; split <;> norm_num

theorem netWidth_pos (v : Nat) : 1 ≤ netWidth v := by
  unfold netWidth; split <;> norm_num

theorem bytesToBits_packed (n : Net) :
    bytesToBits n.packed = bitsOfNat (netWidth n.version) n.addr := by
  rw [Net.packed, bytesToBits_bytesOf, netWidth_mul8]

theorem netBits_eq_take (n : Net) (h1 : 1 ≤ n.plen) :
    netBits n = (bitsOfNat (netWidth n.version) n.addr).take n.plen := by
  rw [netBits, ipmBits_pos h1, bytesToBits_packed]

theorem netBits_eq (n : Net) (h1 : 1 ≤ n.plen) (hw : n.plen ≤ netWidth n.version) :
    netBits n = bitsOfNat n.plen (n.addr / 2 ^ (netWidth n.version - n.plen)) := by
  rw [netBits_eq_take n h1, bitsOfNat_take hw]

theorem netBits_length (n : Net) (h1 : 1 ≤ n.plen) (hw : n.plen ≤ netWidth n.version) :
    (netBits n).length = n.plen := by
  rw [netBits_eq n h1 hw, bitsOfNat_length]

theorem addrBits_eq (n : Net) : addrBits n = bitsOfNat (netWidth n.version) n.addr := by
  rw [addrBits, ipmBits_pos (netWidth_pos _), bytesToBits_packed,
    List.take_of_length_le (le_of_eq (bitsOfNat_length _ _))]

theorem netBits_ne_nil (n : Net) : netBits n ≠ [] := by
  have hlen : (bytesToBits n.packed).length = netWidth n.version := by
    rw [bytesToBits_packed, bitsOfNat_length]
  have hw := netWidth_pos n.version
  rcases Nat.eq_zero_or_pos n.plen with h0 | h1
  · rw [netBits, h0, ipmBits_zero]
    intro hc
    have := congrArg List.length hc
    simp only [List.length_take, hlen, List.length_nil] at this
    omega
  · rw [netBits, ipmBits_pos h1]
    intro hc
    have := congrArg List.length hc
    simp only [List.length_take, hlen, List.length_nil] at this
    omega

theorem bcast_eq (n : Net) (hnorm : n.addr % 2 ^ (netWidth n.version - n.plen) = 0) :
    n.bcast = n.addr + (2 ^ (netWidth n.version - n.plen) - 1) := by
  obtain ⟨c, hc⟩ : 2 ^ (netWidth n.version - n.plen) ∣ n.addr :=
    Nat.dvd_of_mod_eq_zero hnorm
  rw [Net.bcast, hc]
  exact (Nat.mul_add_lt_is_or
    (Nat.sub_lt (Nat.two_pow_pos _) Nat.one_pos) c).symm

theorem subnetOf_iff_num {a b : Net} (hv : a.version = b.version) :
    subnetOf a b = .ok true ↔ (b.addr ≤ a.addr ∧ a.bcast ≤ b.bcast) := by
  simp [subnetOf, hv, Bool.and_eq_true, decide_eq_true_eq]

theorem interval_iff {w pa pb A B : Nat} (hpa : pa ≤ w) (hpb : pb ≤ w)
    (hAn : A % 2 ^ (w - pa) = 0) (hBn : B % 2 ^ (w - pb) = 0) :
    (B ≤ A ∧ A + (2 ^ (w - pa) - 1) ≤ B + (2 ^ (w - pb) - 1)) ↔
      (pb ≤ pa ∧ B / 2 ^ (w - pb) = A / 2 ^ (w - pb)) := by
  have h2a : 1 ≤ 2 ^ (w - pa) := Nat.one_le_two_pow
  have h2b : 1 ≤ 2 ^ (w - pb) := Nat.one_le_two_pow
  obtain ⟨d, hd⟩ : 2 ^ (w - pb) ∣ B := Nat.dvd_of_mod_eq_zero hBn
  constructor
  · rintro ⟨hba, hbc⟩
    have hpow : 2 ^ (w - pa) ≤ 2 ^ (w - pb) := by omega
    have hple : pb ≤ pa := by
      have := (Nat.pow_le_pow_iff_right (a := 2) (by norm_num)).mp hpow
      omega
    refine ⟨hple, ?_⟩
    have hAlt : A < B + 2 ^ (w - pb) := by omega
    have hBd : B / 2 ^ (w - pb) = d := by
      rw [hd, Nat.mul_div_cancel_left _ (Nat.two_pow_pos _)]
    have hAeq : A = 2 ^ (w - pb) * d + (A - B) := by omega
    have hAd : A / 2 ^ (w - pb) = d := by
      rw [hAeq, Nat.mul_add_div (Nat.two_pow_pos _),
        Nat.div_eq_of_lt (by omega), Nat.add_zero]
    rw [hBd, hAd]
  · rintro ⟨hple, hdiv⟩
    have hmm : w - pa ≤ w - pb := by omega
    have hdvdpow : 2 ^ (w - pa) ∣ 2 ^ (w - pb) := pow_dvd_pow 2 hmm
    have hBd : B / 2 ^ (w - pb) = d := by
      rw [hd, Nat.mul_div_cancel_left _ (Nat.two_pow_pos _)]
    have hmod := Nat.div_add_mod A (2 ^ (w - pb))
    have hAd2 : A / 2 ^ (w - pb) = d := hdiv.symm.trans hBd
    rw [hAd2] at hmod
    have hAeq : A = B + A % 2 ^ (w - pb) := by omega
    have hrlt : A % 2 ^ (w - pb) < 2 ^ (w - pb) := Nat.mod_lt _ (Nat.two_pow_pos _)
    have hdr : 2 ^ (w - pa) ∣ A % 2 ^ (w - pb) := by
      have hdA : 2 ^ (w - pa) ∣ A := Nat.dvd_of_mod_eq_zero hAn
      have hdB : 2 ^ (w - pa) ∣ B := hd ▸ Dvd.dvd.mul_right hdvdpow d
      have : A % 2 ^ (w - pb) = A - B := by omega
      rw [this]
      exact Nat.dvd_sub' hdA hdB
    obtain ⟨s, hs⟩ := hdr
    obtain ⟨t, ht⟩ := hdvdpow
    have hst : s < t := by
      have : 2 ^ (w - pa) * s < 2 ^ (w - pa) * t := by
        rw [← hs, ← ht]; exact hrlt
      exact Nat.lt_of_mul_lt_mul_left this
    have hsum : A % 2 ^ (w - pb) + 2 ^ (w - pa) ≤ 2 ^ (w - pb) := by
      have h1 : 2 ^ (w - pa) * (s + 1) ≤ 2 ^ (w - pa) * t :=
        Nat.mul_le_mul_left _ (by omega)
      rw [Nat.mul_add, Nat.mul_one] at h1
      rw [hs, ht]
      omega
    constructor
    · omega
    · omega

theorem netWidth_congr {a b : Net} (hv : a.version = b.version) :
    netWidth b.version = netWidth a.version := by rw [hv]

theorem subnetOf_iff_bits {a b : Net} (ha : a.WF) (hb : b.WF)
    (hv : a.version = b.version) (h1 : 1 ≤ b.plen) :
    subnetOf a b = .ok true ↔ (b.plen ≤ a.plen ∧ netBits b <+: netBits a) := by
  obtain ⟨_, hpa, hAlt, hAn⟩ := ha
  obtain ⟨_, hpb, hBlt, hBn⟩ := hb
  have hwb : netWidth b.version = netWidth a.version := netWidth_congr hv
  rw [subnetOf_iff_num hv, bcast_eq a hAn, bcast_eq b hBn, hwb]
  rw [hwb] at hpb hBlt hBn
  rw [interval_iff hpa hpb hAn hBn]
  refine and_congr_right fun hple => ?_
  have h1a : 1 ≤ a.plen := le_trans h1 hple
  have hba : netBits b = bitsOfNat b.plen (b.addr / 2 ^ (netWidth a.version - b.plen)) := by
    rw [netBits_eq b h1 (hwb ▸ hpb), hwb]
  have haa : netBits a = bitsOfNat a.plen (a.addr / 2 ^ (netWidth a.version - a.plen)) :=
    netBits_eq a h1a hpa
  have hlb : (netBits b).length = b.plen := by rw [hba, bitsOfNat_length]
  have htake : (netBits a).take b.plen =
      bitsOfNat b.plen (a.addr / 2 ^ (netWidth a.version - b.plen)) := by
    rw [haa, bitsOfNat_take hple, Nat.div_div_eq_div_mul, ← Nat.pow_add]
    have he : netWidth a.version - a.plen + (a.plen - b.plen) =
        netWidth a.version - b.plen := by omega
    rw [he]
  constructor
  · intro hdiv
    rw [ List.prefix_iff_eq_take, hlb, htake, hba, hdiv]
  · intro hpre
    rw [ List.prefix_iff_eq_take, hlb, htake, hba] at hpre
    have hbb : b.addr / 2 ^ (netWidth a.version - b.plen) < 2 ^ b.plen := by
      rw [Nat.div_lt_iff_lt_mul (Nat.two_pow_pos _), ← Nat.pow_add]
      have : b.plen + (netWidth a.version - b.plen) = netWidth a.version := by omega
      rw [this]
      exact hBlt
    have hab : a.addr / 2 ^ (netWidth a.version - b.plen) < 2 ^ b.plen := by
      rw [Nat.div_lt_iff_lt_mul (Nat.two_pow_pos _), ← Nat.pow_add]
      have : b.plen + (netWidth a.version - b.plen) = netWidth a.version := by omega
      rw [this]
      exact hAlt
    exact bitsOfNat_inj hbb hab hpre

theorem netBits_inj {p q : Net} (hp : p.WF) (hq : q.WF) (hv : p.version = q.version)
    (h1p : 1 ≤ p.plen) (h1q : 1 ≤ q.plen) (h : netBits p = netBits q) : p = q := by
  obtain ⟨_, hpp, hplt, hpn⟩ := hp
  obtain ⟨_, hqp, hqlt, hqn⟩ := hq
  have hwq : netWidth q.version = netWidth p.version := netWidth_congr hv
  have hlen : p.plen = q.plen := by
    have h1 := netBits_length p h1p hpp
    have h2 := netBits_length q h1q hqp
    rw [← h1, ← h2, h]
  have hdiv : p.addr / 2 ^ (netWidth p.version - p.plen) =
      q.addr / 2 ^ (netWidth p.version - p.plen) := by
    rw [netBits_eq p h1p hpp, netBits_eq q h1q hqp, hwq, ← hlen] at h
    refine bitsOfNat_inj ?_ ?_ h
    · rw [Nat.div_lt_iff_lt_mul (Nat.two_pow_pos _), ← Nat.pow_add]
      have : p.plen + (netWidth p.version - p.plen) = netWidth p.version := by omega
      rw [this]
      exact hplt
    · rw [Nat.div_lt_iff_lt_mul (Nat.two_pow_pos _), ← Nat.pow_add]
      have : p.plen + (netWidth p.version - p.plen) = netWidth p.version := by omega
      rw [this]
      rw [hwq] at hqlt
      omega
  have haddr : p.addr = q.addr := by
    obtain ⟨c, hc⟩ : 2 ^ (netWidth p.version - p.plen) ∣ p.addr :=
      Nat.dvd_of_mod_eq_zero hpn
    obtain ⟨d, hd⟩ : 2 ^ (netWidth p.version - p.plen) ∣ q.addr := by
      rw [hwq, ← hlen] at hqn
      exact Nat.dvd_of_mod_eq_zero hqn
    rw [hc, hd] at hdiv ⊢
    rw [Nat.mul_div_cancel_left _ (Nat.two_pow_pos _),
      Nat.mul_div_cancel_left _ (Nat.two_pow_pos _)] at hdiv
    rw [hdiv]
  obtain ⟨pv, pa, pp⟩ := p
  obtain ⟨qv, qa, qp⟩ := q
  simp_all

/-! ## Lemmas: trie structure -/

theorem child_setChild (t : IPTreeNode α) (b : Bool) (c : Option (IPTreeNode α))
    (b' : Bool) : (t.setChild b c).child b' = if b' = b then c else t.child b' := by
  cases t
  cases b <;> cases b' <;>
    simp [IPTreeNode.setChild, IPTreeNode.child, IPTreeNode.one, IPTreeNode.zero]

theorem key_setChild (t : IPTreeNode α) (b : Bool) (c : Option (IPTreeNode α)) :
    (t.setChild b c).key = t.key := by
  cases t; cases b <;> rfl

theorem value_setChild (t : IPTreeNode α) (b : Bool) (c : Option (IPTreeNode α)) :
    (t.setChild b c).value = t.value := by
  cases t; cases b <;> rfl

theorem key_withValue (t : IPTreeNode α) (v : Option α) :
    (t.withValue v).key = t.key := by cases t; rfl

theorem value_withValue (t : IPTreeNode α) (v : Option α) :
    (t.withValue v).value = v := by cases t; rfl

theorem child_withValue (t : IPTreeNode α) (v : Option α) (b : Bool) :
    (t.withValue v).child b = t.child b := by
  cases t; cases b <;> rfl

theorem keyAt_nil (t : IPTreeNode α) : keyAt t [] = t.key := rfl

theorem valAt_nil (t : IPTreeNode α) : valAt t [] = t.value := rfl

theorem keyAt_cons (t : IPTreeNode α) (b : Bool) (bs : List Bool) :
    keyAt t (b :: bs) = (t.child b).elim none (fun c => keyAt c bs) := by
  rw [keyAt, nodeAt]
  cases t.child b <;> simp [keyAt]

theorem valAt_cons (t : IPTreeNode α) (b : Bool) (bs : List Bool) :
    valAt t (b :: bs) = (t.child b).elim none (fun c => valAt c bs) := by
  rw [valAt, nodeAt]
  cases t.child b <;> simp [valAt]

theorem kvAt_empty : ∀ (bs : List Bool),
    keyAt (emptyNode (α := α)) bs = none ∧ valAt (emptyNode (α := α)) bs = none := by
  intro bs
  cases bs with
  | nil => exact ⟨rfl, rfl⟩
  | cons b bs =>
    constructor
    · rw [keyAt_cons]
      cases b <;> rfl
    · rw [valAt_cons]
      cases b <;> rfl

theorem traverse_eq_filterMap : ∀ (bs : List Bool) (t : IPTreeNode α),
    traversePath t bs = (List.range bs.length).filterMap (fun i => nodeAt t (bs.take (i + 1))) := by
  intro bs
  induction bs with
  | nil => intro t; rfl
  | cons b bs ih =>
    intro t
    cases hc : t.child b with
    | none =>
      simp only [traversePath, hc]
      symm
      rw [List.filterMap_eq_nil_iff]
      intro i _
      rw [List.take_succ_cons]
      simp [nodeAt, hc]
    | some c =>
      have h0 : nodeAt t ((b :: bs).take (0 + 1)) = some c := by
        simp [nodeAt, hc]
      simp only [traversePath, hc, List.length_cons, List.range_succ_eq_map,
        List.filterMap_cons, h0, List.filterMap_map]
      rw [ih c]
      refine congrArg₂ _ rfl ?_
      refine List.filterMap_congr fun i _ => ?_
      show nodeAt c (bs.take (i + 1)) = nodeAt t ((b :: bs).take (i + 1 + 1))
      rw [List.take_succ_cons]
      simp [nodeAt, hc]

theorem mem_traverse_iff {t : IPTreeNode α} {bs : List Bool} {n : IPTreeNode α} :
    n ∈ traversePath t bs ↔ ∃ i < bs.length, nodeAt t (bs.take (i + 1)) = some n := by
  rw [traverse_eq_filterMap, List.mem_filterMap]
  constructor
  · rintro ⟨i, hi, hn⟩
    exact ⟨i, List.mem_range.mp hi, hn⟩
  · rintro ⟨i, hi, hn⟩
    exact ⟨i, List.mem_range.mpr hi, hn⟩

theorem kvAt_insertAt_self : ∀ (bs : List Bool) (t : IPTreeNode α) (k : Net) (v : α),
    keyAt (insertAt t bs k v) bs = some k ∧ valAt (insertAt t bs k v) bs = some v := by
  intro bs
  induction bs with
  | nil =>
    intro t k v
    cases t
    exact ⟨rfl, rfl⟩
  | cons b bs ih =>
    intro t k v
    rw [insertAt, keyAt_cons, valAt_cons, child_setChild]
    simp only [if_pos rfl, Option.elim]
    exact ih _ k v

theorem kvAt_insertAt_ne : ∀ (bs : List Bool) (t : IPTreeNode α) (k : Net) (v : α)
    (cs : List Bool), cs ≠ bs →
    keyAt (insertAt t bs k v) cs = keyAt t cs ∧
      valAt (insertAt t bs k v) cs = valAt t cs := by
  intro bs
  induction bs with
  | nil =>
    intro t k v cs hcs
    cases cs with
    | nil => exact absurd rfl hcs
    | cons c cs =>
      cases t
      rw [insertAt, keyAt_cons, keyAt_cons, valAt_cons, valAt_cons]
      constructor <;> rfl
  | cons b bs ih =>
    intro t k v cs hcs
    cases cs with
    | nil =>
      rw [insertAt, keyAt_nil, valAt_nil, key_setChild, value_setChild,
        keyAt_nil, valAt_nil]
      exact ⟨rfl, rfl⟩
    | cons c cs =>
      rw [insertAt, keyAt_cons, valAt_cons, keyAt_cons (t := t), valAt_cons (t := t),
        child_setChild]
      by_cases hcb : c = b
      · subst hcb
        rw [if_pos rfl]
        have hne : cs ≠ bs := by
          intro h
          exact hcs (by rw [h])
        cases hm : t.child c with
        | none =>
          simp only [Option.elim]
          have h1 := ih emptyNode k v cs hne
          have h2 := kvAt_empty (α := α) cs
          simp only [hm, Option.getD]
          exact ⟨h1.1.trans h2.1, h1.2.trans h2.2⟩
        | some c0 =>
          simp only [Option.elim, hm, Option.getD]
          exact ih c0 k v cs hne
      · rw [if_neg hcb]
        exact ⟨rfl, rfl⟩

theorem kvAt_insertAll : ∀ (entries : List (Net × β)) (t : IPTreeNode β) (bs : List Bool),
    keyAt (insertAll t entries) bs =
      (entries.reverse.find? (fun e => decide (netBits e.1 = bs))).elim (keyAt t bs)
        (fun e => some e.1) ∧
    valAt (insertAll t entries) bs =
      (entries.reverse.find? (fun e => decide (netBits e.1 = bs))).elim (valAt t bs)
        (fun e => some e.2) := by
  intro entries
  induction entries with
  | nil => intro t bs; exact ⟨rfl, rfl⟩
  | cons e es ih =>
    intro t bs
    have hstep : insertAll t (e :: es) = insertAll (setItem t e.1 e.2) es := rfl
    rw [hstep, List.reverse_cons, List.find?_append]
    have hih := ih (setItem t e.1 e.2) bs
    cases hf : es.reverse.find? (fun x => decide (netBits x.1 = bs)) with
    | some e2 =>
      rw [hf] at hih
      simpa [Option.or] using hih
    | none =>
      rw [hf] at hih
      simp only [Option.elim] at hih
      by_cases hb : netBits e.1 = bs
      · have hfind : [e].find? (fun x => decide (netBits x.1 = bs)) = some e := by
          simp [List.find?_cons, hb]
        rw [hfind]
        simp only [Option.or, Option.elim]
        rw [hih.1, hih.2, setItem, ← hb]
        exact kvAt_insertAt_self _ _ _ _
      · have hfind : [e].find? (fun x => decide (netBits x.1 = bs)) = none := by
          simp [List.find?_cons, hb]
        rw [hfind]
        simp only [Option.or, Option.elim]
        rw [hih.1, hih.2, setItem]
        exact kvAt_insertAt_ne (netBits e.1) t e.1 e.2 bs (fun h => hb h.symm)

theorem getLast?_cons_elim (a : α) (l : List α) :
    (a :: l).getLast? = (l.getLast?).elim (some a) some := by
  induction l generalizing a with
  | nil => rfl
  | cons b m ih =>
    rw [List.getLast?_cons_cons, ih b]
    cases m.getLast? <;> rfl

theorem foldl_best_eq_getLast : ∀ (l : List (IPTreeNode α)) (acc : Option (IPTreeNode α)),
    l.foldl (fun bestpoint point => if point.value.isSome then some point else bestpoint) acc =
      ((l.filter (fun p => p.value.isSome)).getLast?).elim acc some := by
  intro l
  induction l with
  | nil => intro acc; rfl
  | cons x l ih =>
    intro acc
    rw [List.foldl_cons, ih, List.filter_cons]
    by_cases hx : x.value.isSome
    · rw [if_pos hx, hx, if_pos rfl, getLast?_cons_elim]
      cases (l.filter (fun p => p.value.isSome)).getLast? <;> rfl
    · rw [if_neg hx]
      have : (x.value.isSome : Bool) = false := by simpa using hx
      rw [this]
      simp only [Bool.false_eq_true, if_false]

theorem findLongestPfx_eq_getLast (t : IPTreeNode α) (bs : List Bool) :
    findLongestPfx t bs = (findAll t bs).getLast? := by
  rw [findLongestPfx, findAll, foldl_best_eq_getLast]
  cases ((traversePath t bs).filter (fun p => p.value.isSome)).getLast? <;> rfl

theorem findOnPath_eq_nodeAt : ∀ (bs : List Bool) (t : IPTreeNode α) (k : Net),
    bs ≠ [] → keyAt t bs = some k →
    (∀ cs, cs ≠ [] → cs <+: bs → cs ≠ bs → keyAt t cs ≠ some k) →
    findOnPath t bs k = nodeAt t bs := by
  intro bs
  induction bs with
  | nil => intro t k h; exact absurd rfl h
  | cons b bs ih =>
    intro t k _ hterm hproper
    have hc : ∃ c, t.child b = some c := by
      rw [keyAt_cons] at hterm
      cases hcc : t.child b with
      | none => rw [hcc] at hterm; simp [Option.elim] at hterm
      | some c => exact ⟨c, rfl⟩
    obtain ⟨c, hc⟩ := hc
    rw [keyAt_cons, hc] at hterm
    simp only [Option.elim] at hterm
    have hnode : nodeAt t (b :: bs) = nodeAt c bs := by
      rw [nodeAt.eq_def]
      simp [hc]
    simp only [findOnPath, traversePath, hc]
    cases bs with
    | nil =>
      rw [keyAt_nil] at hterm
      rw [hnode]
      simp [List.find?_cons, hterm, nodeAt]
    | cons b2 bs2 =>
      have hck : c.key ≠ some k := by
        have hp := hproper [b] (by simp) ⟨b2 :: bs2, rfl⟩ (by simp)
        rw [keyAt_cons, hc] at hp
        simpa using hp
      rw [List.find?_cons]
      have : (decide (c.key = some k)) = false := by simpa using hck
      rw [this, hnode]
      refine ih c k (by simp) hterm ?_
      intro cs hne hpre hneq hkey
      refine hproper (b :: cs) (by simp) ?_ (by simpa using hneq) ?_
      · exact ( List.cons_prefix_cons).mpr ⟨rfl, hpre⟩
      · rw [keyAt_cons, hc]
        simpa using hkey

theorem keyAt_ne_of_loc {t : IPTreeNode α} (hloc : KeysAtOwnPath t) {k : Net}
    {cs : List Bool} (hne : cs ≠ netBits k) : keyAt t cs ≠ some k :=
  fun hk => hne (hloc cs k hk)

theorem containsKey_iff {t : IPTreeNode α} (k : Net) (hloc : KeysAtOwnPath t) :
    containsKey t k = true ↔ keyAt t (netBits k) = some k := by
  constructor
  · intro h
    rw [containsKey] at h
    obtain ⟨n, hn⟩ := Option.isSome_iff_exists.mp h
    have hmem : n ∈ traversePath t (netBits k) := List.mem_of_find?_eq_some hn
    have hkey : n.key = some k := by
      have := List.find?_some hn
      simpa using this
    obtain ⟨i, _, hnode⟩ := mem_traverse_iff.mp hmem
    have hkat : keyAt t ((netBits k).take (i + 1)) = some k := by
      rw [keyAt, hnode]
      simpa using hkey
    have heq := hloc _ _ hkat
    rw [← heq]
    exact hkat
  · intro h
    have hfe : findExact t k = nodeAt t (netBits k) :=
      findOnPath_eq_nodeAt (netBits k) t k (netBits_ne_nil k) h
        (fun cs _ _ hneq => keyAt_ne_of_loc hloc hneq)
    rw [containsKey, hfe]
    rw [keyAt] at h
    cases hn : nodeAt t (netBits k) with
    | none => rw [hn] at h; simp at h
    | some n => rfl

theorem lookupExact_eq {t : IPTreeNode α} (k : Net) (hloc : KeysAtOwnPath t)
    (h : keyAt t (netBits k) = some k) :
    lookupExact t k = .ok (valAt t (netBits k)) := by
  have hfe : findExact t k = nodeAt t (netBits k) :=
    findOnPath_eq_nodeAt (netBits k) t k (netBits_ne_nil k) h
      (fun cs _ _ hneq => keyAt_ne_of_loc hloc hneq)
  rw [keyAt] at h
  cases hn : nodeAt t (netBits k) with
  | none => rw [hn] at h; simp at h
  | some n =>
    rw [lookupExact, hfe, hn, valAt, hn]
    rfl

theorem kvAt_withValue_cons (c : IPTreeNode α) (v : Option α) (b : Bool) (cs : List Bool) :
    keyAt (c.withValue v) (b :: cs) = keyAt c (b :: cs) ∧
      valAt (c.withValue v) (b :: cs) = valAt c (b :: cs) := by
  rw [keyAt_cons, keyAt_cons, valAt_cons, valAt_cons, child_withValue]
  exact ⟨rfl, rfl⟩

theorem kvAt_MFK (k : Net) (f : Option α → Option α) : ∀ (bs : List Bool) (t : IPTreeNode α),
    bs ≠ [] → keyAt t bs = some k →
    (∀ cs, cs ≠ [] → cs <+: bs → cs ≠ bs → keyAt t cs ≠ some k) →
    ∀ cs, keyAt (modifyFirstKey k f t bs) cs = keyAt t cs ∧
      valAt (modifyFirstKey k f t bs) cs =
        (if cs = bs then f (valAt t bs) else valAt t cs) := by
  intro bs
  induction bs with
  | nil => intro t h; exact absurd rfl h
  | cons b bs ih =>
    intro t _ hterm hproper cs
    have hcex : ∃ c, t.child b = some c := by
      rw [keyAt_cons] at hterm
      cases hcc : t.child b with
      | none => rw [hcc] at hterm; simp [Option.elim] at hterm
      | some c => exact ⟨c, rfl⟩
    obtain ⟨c, hc⟩ := hcex
    have htermc : keyAt c bs = some k := by
      rw [keyAt_cons, hc] at hterm
      simpa using hterm
    have hvt : valAt t (b :: bs) = valAt c bs := by
      rw [valAt_cons, hc]; rfl
    have hkt : ∀ ds, keyAt t (b :: ds) = keyAt c ds := by
      intro ds; rw [keyAt_cons, hc]; rfl
    have hvt2 : ∀ ds, valAt t (b :: ds) = valAt c ds := by
      intro ds; rw [valAt_cons, hc]; rfl
    cases bs with
    | nil =>
      have hck : c.key = some k := by rw [keyAt_nil] at htermc; exact htermc
      have hM : modifyFirstKey k f t [b] =
          t.setChild b (some (c.withValue (f c.value))) := by
        simp only [modifyFirstKey, hc, hck, if_pos]
      rw [hM]
      cases cs with
      | nil =>
        rw [keyAt_nil, keyAt_nil, valAt_nil, valAt_nil, key_setChild, value_setChild,
          if_neg (by simp : ([] : List Bool) ≠ [b])]
        exact ⟨rfl, rfl⟩
      | cons c2 cs2 =>
        by_cases hcb : c2 = b
        · subst hcb
          rw [keyAt_cons, valAt_cons, child_setChild, if_pos rfl]
          cases cs2 with
          | nil =>
            simp only [Option.elim, keyAt_nil, valAt_nil, key_withValue, value_withValue,
              if_true]
            rw [hkt [], hvt, keyAt_nil, valAt_nil]
            exact ⟨rfl, rfl⟩
          | cons c3 cs3 =>
            simp only [Option.elim]
            have hkv := kvAt_withValue_cons c (f c.value) c3 cs3
            rw [hkv.1, hkv.2, if_neg (by simp : (c2 :: c3 :: cs3) ≠ [c2]),
              hkt (c3 :: cs3), hvt2 (c3 :: cs3)]
            exact ⟨rfl, rfl⟩
        · rw [keyAt_cons, valAt_cons, child_setChild, if_neg hcb,
            ← keyAt_cons, ← valAt_cons, if_neg (by simp [hcb] : (c2 :: cs2) ≠ [b])]
          exact ⟨rfl, rfl⟩
    | cons b2 bs2 =>
      have hck : c.key ≠ some k := by
        have hp := hproper [b] (by simp) ⟨b2 :: bs2, rfl⟩ (by simp)
        rw [keyAt_cons, hc] at hp
        simpa using hp
      have hM : modifyFirstKey k f t (b :: b2 :: bs2) =
          t.setChild b (some (modifyFirstKey k f c (b2 :: bs2))) := by
        simp only [modifyFirstKey, hc, hck, if_false]
      have hpc : ∀ ds, ds ≠ [] → ds <+: (b2 :: bs2) → ds ≠ (b2 :: bs2) →
          keyAt c ds ≠ some k := by
        intro ds hne hpre hneq hkey
        exact hproper (b :: ds) (by simp) (( List.cons_prefix_cons).mpr ⟨rfl, hpre⟩)
          (by simpa using hneq) ((hkt ds).trans hkey)
      have hih := ih c (by simp) htermc hpc
      rw [hM]
      cases cs with
      | nil =>
        rw [keyAt_nil, keyAt_nil, valAt_nil, valAt_nil, key_setChild, value_setChild,
          if_neg (by simp : ([] : List Bool) ≠ b :: b2 :: bs2)]
        exact ⟨rfl, rfl⟩
      | cons c2 cs2 =>
        by_cases hcb : c2 = b
        · subst hcb
          rw [keyAt_cons, valAt_cons, child_setChild, if_pos rfl]
          simp only [Option.elim]
          have h2 := hih cs2
          rw [h2.1, h2.2, hkt cs2, hvt]
          constructor
          · rfl
          · by_cases hq : cs2 = b2 :: bs2
            · rw [if_pos hq, if_pos (by rw [hq])]
            · rw [if_neg hq, if_neg (by simpa using hq), hvt2 cs2]
        · rw [keyAt_cons, valAt_cons, child_setChild, if_neg hcb,
            ← keyAt_cons, ← valAt_cons,
            if_neg (by simp [hcb] : (c2 :: cs2) ≠ b :: b2 :: bs2)]
          exact ⟨rfl, rfl⟩

theorem loc_empty : KeysAtOwnPath (emptyNode (α := α)) := by
  intro bs p h
  rw [(kvAt_empty bs).1] at h
  exact absurd h (by simp)

theorem loc_setItem {t : IPTreeNode α} (hloc : KeysAtOwnPath t) (k : Net) (v : α) :
    KeysAtOwnPath (setItem t k v) := by
  intro bs p h
  by_cases hb : bs = netBits k
  · subst hb
    rw [setItem, (kvAt_insertAt_self (netBits k) t k v).1] at h
    obtain rfl : k = p := by simpa using h
    rfl
  · rw [setItem, (kvAt_insertAt_ne (netBits k) t k v bs hb).1] at h
    exact hloc bs p h

theorem rtInsertTree_char (t : IPTreeNode (List ρ)) (a : Net) (r : ρ)
    (hloc : KeysAtOwnPath t) :
    KeysAtOwnPath (rtInsertTree t a r) ∧
    (∀ cs, cs ≠ netBits a →
      keyAt (rtInsertTree t a r) cs = keyAt t cs ∧
        valAt (rtInsertTree t a r) cs = valAt t cs) ∧
    keyAt (rtInsertTree t a r) (netBits a) = some a ∧
    valAt (rtInsertTree t a r) (netBits a) =
      some (((if containsKey t a then valAt t (netBits a)
              else some ([] : List ρ)).getD []) ++ [r]) := by
  have key4 : ∀ (t1 : IPTreeNode (List ρ)), KeysAtOwnPath t1 →
      keyAt t1 (netBits a) = some a →
      (∀ cs, keyAt (modifyFirstKey a (fun v => some (v.getD [] ++ [r])) t1 (netBits a)) cs
          = keyAt t1 cs ∧
        valAt (modifyFirstKey a (fun v => some (v.getD [] ++ [r])) t1 (netBits a)) cs =
          (if cs = netBits a then some ((valAt t1 (netBits a)).getD [] ++ [r])
           else valAt t1 cs)) := by
    intro t1 hloc1 hterm cs
    exact kvAt_MFK a (fun v => some (v.getD [] ++ [r])) (netBits a) t1
      (netBits_ne_nil a) hterm (fun ds _ _ hneq => keyAt_ne_of_loc hloc1 hneq) cs
  by_cases hct : containsKey t a
  · have hterm : keyAt t (netBits a) = some a := (containsKey_iff a hloc).mp hct
    have hrt : rtInsertTree t a r =
        modifyFirstKey a (fun v => some (v.getD [] ++ [r])) t (netBits a) := by
      rw [rtInsertTree]
      simp [hct]
    rw [hrt]
    refine ⟨?_, ?_, ?_, ?_⟩
    · intro bs p h
      rw [(key4 t hloc hterm bs).1] at h
      exact hloc bs p h
    · intro cs hcs
      have h := key4 t hloc hterm cs
      rw [h.1, h.2, if_neg hcs]
      exact ⟨rfl, rfl⟩
    · rw [(key4 t hloc hterm (netBits a)).1]
      exact hterm
    · rw [(key4 t hloc hterm (netBits a)).2, if_pos rfl, if_pos hct]
  · set t1 := setItem t a ([] : List ρ) with ht1
    have hloc1 : KeysAtOwnPath t1 := loc_setItem hloc a []
    have hterm : keyAt t1 (netBits a) = some a :=
      (kvAt_insertAt_self (netBits a) t a ([] : List ρ)).1
    have hval1 : valAt t1 (netBits a) = some ([] : List ρ) :=
      (kvAt_insertAt_self (netBits a) t a ([] : List ρ)).2
    have hrt : rtInsertTree t a r =
        modifyFirstKey a (fun v => some (v.getD [] ++ [r])) t1 (netBits a) := by
      rw [rtInsertTree]
      simp [hct, ht1]
    rw [hrt]
    refine ⟨?_, ?_, ?_, ?_⟩
    · intro bs p h
      rw [(key4 t1 hloc1 hterm bs).1] at h
      exact hloc1 bs p h
    · intro cs hcs
      have h := key4 t1 hloc1 hterm cs
      rw [h.1, h.2, if_neg hcs, ht1, setItem]
      exact kvAt_insertAt_ne (netBits a) t a ([] : List ρ) cs hcs
    · rw [(key4 t1 hloc1 hterm (netBits a)).1]
      exact hterm
    · rw [(key4 t1 hloc1 hterm (netBits a)).2, if_pos rfl, hval1, if_neg hct]

theorem rtFold_char : ∀ (rows : List (Net × ρ)) (t : IPTreeNode (List ρ)),
    KeysAtOwnPath t →
    KeysAtOwnPath (rtFold t rows) ∧
    ∀ bs, (valAt (rtFold t rows) bs).isSome ↔
      ((valAt t bs).isSome ∨ ∃ ar ∈ rows, netBits ar.1 = bs) := by
  intro rows
  induction rows with
  | nil =>
    intro t hloc
    exact ⟨hloc, fun bs => by simp [rtFold]⟩
  | cons ar rows ih =>
    intro t hloc
    have hstep : rtFold t (ar :: rows) = rtFold (rtInsertTree t ar.1 ar.2) rows := rfl
    obtain ⟨hloc2, hother, hkey, hval⟩ := rtInsertTree_char t ar.1 ar.2 hloc
    obtain ⟨hloc3, hiff⟩ := ih (rtInsertTree t ar.1 ar.2) hloc2
    rw [hstep]
    refine ⟨hloc3, fun bs => ?_⟩
    rw [hiff bs]
    by_cases hb : bs = netBits ar.1
    · subst hb
      rw [hval]
      simp only [Option.isSome_some, true_or, true_iff]
      right
      exact ⟨ar, List.mem_cons_self _ _, rfl⟩
    · rw [(hother bs (fun h => hb h)).2]
      constructor
      · rintro (h | ⟨e, he, hbe⟩)
        · exact Or.inl h
        · exact Or.inr ⟨e, List.mem_cons_of_mem _ he, hbe⟩
      · rintro (h | ⟨e, he, hbe⟩)
        · exact Or.inl h
        · rcases List.mem_cons.mp he with rfl | hmem
          · exact absurd hbe.symm hb
          · exact Or.inr ⟨e, hmem, hbe⟩

theorem get_set_same (d : DualTrees α) (v : Nat) (t : IPTreeNode α) :
    (d.set v t).get v = t := by
  unfold DualTrees.set DualTrees.get
  by_cases h : v = 4 <;> simp [h]

theorem get_set_other (d : DualTrees α) (v w : Nat) (t : IPTreeNode α)
    (hv : v = 4 ∨ v = 6) (hw : w = 4 ∨ w = 6) (hne : v ≠ w) :
    (d.set v t).get w = d.get w := by
  unfold DualTrees.set DualTrees.get
  rcases hv with h4 | h6 <;> rcases hw with g4 | g6 <;> subst_vars <;> simp_all

theorem readRT_get_fold : ∀ (rows : List (Net × ρ)) (d : DualTrees (List ρ)) (V : Nat),
    (V = 4 ∨ V = 6) → (∀ ar ∈ rows, ar.1.version = V) →
    (readRT d rows).get V = rtFold (d.get V) rows ∧
    (∀ W, (W = 4 ∨ W = 6) → W ≠ V → (readRT d rows).get W = d.get W) := by
  intro rows
  induction rows with
  | nil => intro d V _ _; exact ⟨rfl, fun W _ _ => rfl⟩
  | cons ar rows ih =>
    intro d V hV hver
    have hv1 : ar.1.version = V := hver ar (List.mem_cons_self _ _)
    have hstep : readRT d (ar :: rows) = readRT (rtInsert d ar.1 ar.2) rows := rfl
    have hrest : ∀ e ∈ rows, e.1.version = V :=
      fun e he => hver e (List.mem_cons_of_mem _ he)
    obtain ⟨h1, h2⟩ := ih (rtInsert d ar.1 ar.2) V hV hrest
    rw [hstep]
    constructor
    · rw [h1]
      have : (rtInsert d ar.1 ar.2).get V = rtInsertTree (d.get V) ar.1 ar.2 := by
        rw [rtInsert, hv1, get_set_same]
      rw [this]
      rfl
    · intro W hW hne
      rw [h2 W hW hne]
      rw [rtInsert, hv1, get_set_other d V W _ hV hW (fun h => hne h.symm)]

theorem subnetOf_ok_version {a b : Net} {c : Bool} (h : subnetOf a b = .ok c) :
    a.version = b.version := by
  by_contra hv
  rw [subnetOf, if_pos hv] at h
  exact nomatch h

theorem readRT_get_filter : ∀ (rows : List (Net × ρ)) (d : DualTrees (List ρ)) (V : Nat),
    (V = 4 ∨ V = 6) → (∀ ar ∈ rows, ar.1.version = 4 ∨ ar.1.version = 6) →
    (readRT d rows).get V =
      rtFold (d.get V) (rows.filter (fun ar => decide (ar.1.version = V))) := by
  intro rows
  induction rows with
  | nil => intro d V _ _; rfl
  | cons ar rows ih =>
    intro d V hV hvers
    have hstep : readRT d (ar :: rows) = readRT (rtInsert d ar.1 ar.2) rows := rfl
    have hrest : ∀ e ∈ rows, e.1.version = 4 ∨ e.1.version = 6 :=
      fun e he => hvers e (List.mem_cons_of_mem _ he)
    have har := hvers ar (List.mem_cons_self _ _)
    rw [hstep, ih (rtInsert d ar.1 ar.2) V hV hrest, List.filter_cons]
    by_cases hv : ar.1.version = V
    · rw [if_pos (by simpa using hv)]
      have hget : (rtInsert d ar.1 ar.2).get V = rtInsertTree (d.get V) ar.1 ar.2 := by
        rw [rtInsert, hv, get_set_same]
      rw [hget]
      rfl
    · rw [if_neg (by simpa using hv)]
      have hget : (rtInsert d ar.1 ar.2).get V = d.get V :=
        get_set_other d ar.1.version V _ har hV hv
      rw [hget]

theorem findLongestPfx_none_iff (t : IPTreeNode α) (bs : List Bool) :
    findLongestPfx t bs = none ↔ ∀ i < bs.length, valAt t (bs.take (i + 1)) = none := by
  rw [findLongestPfx_eq_getLast, List.getLast?_eq_none_iff, findAll,
    List.filter_eq_nil_iff]
  constructor
  · intro h i hi
    cases hn : nodeAt t (bs.take (i + 1)) with
    | none => rw [valAt, hn]; rfl
    | some n =>
      have hmem : n ∈ traversePath t bs := mem_traverse_iff.mpr ⟨i, hi, hn⟩
      have := h n hmem
      rw [valAt, hn, Option.some_bind]
      cases hv : n.value with
      | none => rfl
      | some v => rw [hv] at this; simp at this
  · intro h n hmem
    obtain ⟨i, hi, hn⟩ := mem_traverse_iff.mp hmem
    have := h i hi
    rw [valAt, hn, Option.some_bind] at this
    rw [this]
    simp

theorem find?_reverse_of_nodup {entries : List (Net × β)} {p : Net} {v : β}
    (hnd : (entries.map (fun e => netBits e.1)).Nodup)
    (hmem : (p, v) ∈ entries) :
    entries.reverse.find? (fun e => decide (netBits e.1 = netBits p)) = some (p, v) := by
  cases hf : entries.reverse.find? (fun e => decide (netBits e.1 = netBits p)) with
  | none =>
    rw [List.find?_eq_none] at hf
    exact absurd (by simp) (hf (p, v) (List.mem_reverse.mpr hmem))
  | some e =>
    have he : e ∈ entries := List.mem_reverse.mp (List.mem_of_find?_eq_some hf)
    have hpe : netBits e.1 = netBits p := by simpa using List.find?_some hf
    have heq : e = (p, v) := List.inj_on_of_nodup_map hnd he hmem (by simpa using hpe)
    rw [heq]

theorem kvAt_buildTrie_mem {entries : List (Net × β)} {p : Net} {v : β}
    (hnd : (entries.map (fun e => netBits e.1)).Nodup)
    (hmem : (p, v) ∈ entries) :
    keyAt (buildTrie entries) (netBits p) = some p ∧
      valAt (buildTrie entries) (netBits p) = some v := by
  have h := kvAt_insertAll entries emptyNode (netBits p)
  rw [find?_reverse_of_nodup hnd hmem] at h
  simpa [buildTrie, insertAll, Option.elim] using h

theorem kvAt_buildTrie_none {entries : List (Net × β)} {bs : List Bool}
    (h : ∀ e ∈ entries, netBits e.1 ≠ bs) :
    keyAt (buildTrie entries) bs = none ∧ valAt (buildTrie entries) bs = none := by
  have hf : entries.reverse.find? (fun e => decide (netBits e.1 = bs)) = none := by
    rw [List.find?_eq_none]
    intro e he
    simpa using h e (List.mem_reverse.mp he)
  have hk := kvAt_insertAll entries emptyNode bs
  rw [hf] at hk
  simp only [Option.elim] at hk
  refine ⟨hk.1.trans (kvAt_empty bs).1, hk.2.trans (kvAt_empty bs).2⟩

theorem valAt_buildTrie_some {entries : List (Net × β)} {bs : List Bool} {v : β}
    (h : valAt (buildTrie entries) bs = some v) :
    ∃ p, (p, v) ∈ entries ∧ netBits p = bs := by
  have hk := kvAt_insertAll entries emptyNode bs
  cases hf : entries.reverse.find? (fun e => decide (netBits e.1 = bs)) with
  | none =>
    rw [hf] at hk
    simp only [Option.elim] at hk
    rw [show buildTrie entries = insertAll emptyNode entries from rfl] at h
    rw [hk.2.trans (kvAt_empty bs).2] at h
    exact absurd h (by simp)
  | some e =>
    rw [hf] at hk
    simp only [Option.elim] at hk
    rw [show buildTrie entries = insertAll emptyNode entries from rfl] at h
    rw [hk.2] at h
    obtain rfl : e.2 = v := by simpa using h
    refine ⟨e.1, ?_, by simpa using List.find?_some hf⟩
    have := List.mem_reverse.mp (List.mem_of_find?_eq_some hf)
    simpa using this

theorem keyAt_buildTrie_some {entries : List (Net × β)} {bs : List Bool} {p : Net}
    (h : keyAt (buildTrie entries) bs = some p) :
    ∃ v, (p, v) ∈ entries ∧ netBits p = bs := by
  have hk := kvAt_insertAll entries emptyNode bs
  cases hf : entries.reverse.find? (fun e => decide (netBits e.1 = bs)) with
  | none =>
    rw [hf] at hk
    simp only [Option.elim] at hk
    rw [show buildTrie entries = insertAll emptyNode entries from rfl] at h
    rw [hk.1.trans (kvAt_empty bs).1] at h
    exact absurd h (by simp)
  | some e =>
    rw [hf] at hk
    simp only [Option.elim] at hk
    rw [show buildTrie entries = insertAll emptyNode entries from rfl] at h
    rw [hk.1] at h
    obtain rfl : e.1 = p := by simpa using h
    refine ⟨e.2, ?_, by simpa using List.find?_some hf⟩
    have := List.mem_reverse.mp (List.mem_of_find?_eq_some hf)
    simpa using this

/-! ## Lemmas: the linear scanner -/

theorem linMatch_ok : ∀ (table : List (Net × β)) (q : Net),
    (∀ e ∈ table, e.1.version = q.version) →
    linMatch table q = .ok (table.filter
      (fun e => decide (e.1.addr ≤ q.addr) && decide (q.bcast ≤ e.1.bcast))) := by
  intro table
  induction table with
  | nil => intro q _; rfl
  | cons e rest ih =>
    intro q hv
    have hve : e.1.version = q.version := hv e (List.mem_cons_self _ _)
    have hsub : subnetOf q e.1 =
        .ok (decide (e.1.addr ≤ q.addr) && decide (q.bcast ≤ e.1.bcast)) := by
      rw [subnetOf, if_neg (fun h => h hve.symm)]
    have hrest := ih q (fun x hx => hv x (List.mem_cons_of_mem _ hx))
    rw [linMatch, hsub, hrest, List.filter_cons]
    by_cases hc : (decide (e.1.addr ≤ q.addr) && decide (q.bcast ≤ e.1.bcast)) = true
    · rw [hc]
      rfl
    · have hc2 : (decide (e.1.addr ≤ q.addr) && decide (q.bcast ≤ e.1.bcast)) = false := by
        simpa using hc
      rw [hc2]
      rfl

theorem linMatchBest_of_filter_nil {table : List (Net × β)} {q : Net}
    (hv : ∀ e ∈ table, e.1.version = q.version)
    (hnil : table.filter
      (fun e => decide (e.1.addr ≤ q.addr) && decide (q.bcast ≤ e.1.bcast)) = []) :
    linMatchBest table q = .ok (none, none) := by
  rw [linMatchBest, linMatch_ok table q hv, hnil]
  rfl

theorem linMatchBest_of_filter_single {table : List (Net × β)} {q : Net}
    {e : Net × β} (hv : ∀ x ∈ table, x.1.version = q.version)
    (hone : table.filter
      (fun x => decide (x.1.addr ≤ q.addr) && decide (q.bcast ≤ x.1.bcast)) = [e]) :
    linMatchBest table q = .ok (some e.1, some e.2) := by
  rw [linMatchBest, linMatch_ok table q hv, hone]
  rfl

theorem buildTable_aux : ∀ (entries acc : List (Net × β)),
    ((acc ++ entries).map (fun e => e.1)).Nodup →
    entries.foldl (fun tb e => addToTable tb e.1 e.2) acc = acc ++ entries := by
  intro entries
  induction entries with
  | nil => intro acc _; simp
  | cons e es ih =>
    intro acc hnd
    have hnotin : acc.any (fun x => decide (x.1 = e.1)) = false := by
      rw [List.any_eq_false]
      intro x hx
      simp only [decide_eq_true_eq]
      intro hxe
      have h1 : x.1 ∈ (acc ++ e :: es).map (fun e => e.1) :=
        List.mem_map.mpr ⟨x, by simp [hx], rfl⟩
      have hsplit : (acc ++ e :: es).map (fun e => e.1) =
          acc.map (fun e => e.1) ++ e.1 :: es.map (fun e => e.1) := by simp
      rw [hsplit] at hnd
      have := List.disjoint_of_nodup_append hnd
      exact this (List.mem_map.mpr ⟨x, hx, rfl⟩) (by rw [hxe]; exact List.mem_cons_self _ _)
    have hstep : addToTable acc e.1 e.2 = acc ++ [e] := by
      rw [addToTable, if_neg (by rw [hnotin]; exact fun h => nomatch h)]
    rw [List.foldl_cons, hstep, ih (acc ++ [e]) (by simpa using hnd)]
    simp

theorem buildTable_eq_of_nodup {entries : List (Net × β)}
    (hnd : (entries.map (fun e => e.1)).Nodup) :
    buildTable entries = entries :=
  buildTable_aux entries [] (by simpa using hnd)

theorem getLast?_of_all_eq {γ : Type} : ∀ {l : List γ} {x : γ},
    x ∈ l → (∀ y ∈ l, y = x) → l.getLast? = some x := by
  intro l
  induction l with
  | nil => intro x h; exact absurd h (by simp)
  | cons a m ih =>
    intro x hmem hall
    have ha : a = x := hall a (List.mem_cons_self _ _)
    cases m with
    | nil => rw [ha]; rfl
    | cons b m2 =>
      rw [List.getLast?_cons_cons]
      have hb : b = x := hall b (by simp)
      exact ih (by rw [← hb]; exact List.mem_cons_self _ _)
        (fun y hy => hall y (List.mem_cons_of_mem _ hy))

/-! ## Assembly helpers -/

theorem subnetOf_refl (p : Net) : subnetOf p p = .ok true := by
  rw [subnetOf, if_neg (fun h => h rfl)]
  simp

theorem netBits_eq_addrBits {n : Net} (h : n.plen = netWidth n.version) :
    netBits n = addrBits n := by
  rw [netBits, addrBits, h]

theorem lookupLongestPfx_error_iff (t : IPTreeNode α) (bs : List Bool) :
    lookupLongestPfx t bs = .error "KeyError" ↔ findLongestPfx t bs = none := by
  rw [lookupLongestPfx]
  cases findLongestPfx t bs <;> simp

theorem traversePath_empty : ∀ (bs : List Bool), traversePath (emptyNode (α := α)) bs = [] := by
  intro bs
  cases bs with
  | nil => rfl
  | cons b bs =>
    show traversePath (emptyNode (α := α)) (b :: bs) = []
    rw [traversePath.eq_def]
    cases b <;> rfl

theorem containsKey_empty (k : Net) : containsKey (emptyNode (α := α)) k = false := by
  rw [containsKey, findExact, traversePath_empty]
  rfl

theorem matchIP_emptyDual (a : Net) :
    matchIP (emptyDual (α := List ρ)) a = .error "KeyError" := by
  rw [matchIP]
  have hget : (emptyDual (α := List ρ)).get a.version = emptyNode := by
    rw [emptyDual, DualTrees.get]
    split <;> rfl
  rw [hget, lookupLongestPfx_error_iff, findLongestPfx, traversePath_empty]
  rfl

theorem node_on_path {entries : List (Net × β)} {p : Net} {v : β} {bs : List Bool}
    (hnd : (entries.map (fun e => netBits e.1)).Nodup)
    (hmem : (p, v) ∈ entries)
    (hp1 : 1 ≤ p.plen) (hpw : p.plen ≤ netWidth p.version)
    (hpre : netBits p <+: bs) :
    ∃ n, nodeAt (buildTrie entries) (netBits p) = some n ∧ n.key = some p ∧
      n.value = some v ∧ n ∈ traversePath (buildTrie entries) bs := by
  obtain ⟨hk, hv2⟩ := kvAt_buildTrie_mem hnd hmem
  obtain ⟨n, hn⟩ : ∃ n, nodeAt (buildTrie entries) (netBits p) = some n := by
    rw [keyAt] at hk
    cases hnn : nodeAt (buildTrie entries) (netBits p) with
    | none => rw [hnn] at hk; exact absurd hk (by simp)
    | some n => exact ⟨n, rfl⟩
  have hkey : n.key = some p := by rw [keyAt, hn] at hk; simpa using hk
  have hval : n.value = some v := by rw [valAt, hn] at hv2; simpa using hv2
  have hlenP : (netBits p).length = p.plen := netBits_length p hp1 hpw
  have hlenle : (netBits p).length ≤ bs.length := hpre.length_le
  have htake : bs.take (p.plen - 1 + 1) = netBits p := by
    have h0 := List.prefix_iff_eq_take.mp hpre
    rw [hlenP] at h0
    rw [show p.plen - 1 + 1 = p.plen from by omega]
    exact h0.symm
  refine ⟨n, hn, hkey, hval, mem_traverse_iff.mpr ⟨p.plen - 1, ?_, ?_⟩⟩
  · rw [hlenP] at hlenle; omega
  · rw [htake]; exact hn

/-! ## Claim theorems -/

/-- C3 (code bug): the spec says a limit of 0 yields the empty bit sequence,
but `_bits` checks `i >= limit` only after the first yield, so a limit of 0
on the packed bytes of `0.0.0.0` emits one bit instead of none. -/
theorem C3_bits_limit_zero_bug :
    ipmBits [0, 0, 0, 0] 0 = [false] ∧ (ipmBits [0, 0, 0, 0] 0).length ≠ 0 := by
  decide

/-- C2 (code bug): inserting the default route `0.0.0.0/0` stores its value at
the depth-one `zero` child (one bit was emitted for prefix length 0), not at
the root; `matchIP` on 128.0.0.1 (leading bit 1) then raises `KeyError` even
though the default route covers it (`subnetOf` confirms the covering), while
10.0.0.1 (leading bit 0) still matches. -/
theorem C2_default_route_bug :
    matchIP (readRT emptyDual [(dfl4, "default via 10.0.0.1")]) addrB1 =
      .error "KeyError" ∧
    matchIP (readRT emptyDual [(dfl4, "default via 10.0.0.1")]) addrA1 =
      .ok (some ["default via 10.0.0.1"]) ∧
    subnetOf addrB1 dfl4 = .ok true := by
  decide

/-- C1 (counterexample): `__setitem__` runs `point.value = value`, replacing
the stored value.  After inserting (10.0.0.0/8, 1) and then (10.0.0.0/8, 2)
directly into the trie, only 2 is retrievable by exact lookup, and 2 is the
only value anywhere on the lookup path: 1 is gone. -/
theorem C1_cex :
    lookupExact (setItem (setItem (emptyNode (α := Nat)) K10 1) K10 2) K10 =
      .ok (some 2) ∧
    lookupAll (setItem (setItem (emptyNode (α := Nat)) K10 1) K10 2) (netBits K10) =
      [some 2] ∧
    lookupLongestPfx (setItem (setItem (emptyNode (α := Nat)) K10 1) K10 2)
      (netBits K10) = .ok (some 2) := by
  decide

/-- C1 (amended): trie-level insertion replaces — after `t[K] = v1; t[K] = v2`
only `v2` is retrievable — while the consumer-level insertion of `readRT`
(`__contains__` guard plus in-place list append) accumulates, so inserting two
rows under the same key makes both payloads retrievable. -/
theorem C1_insertion_replaces_consumers_accumulate {α ρ : Type}
    (K : Net) (v1 v2 : α) (r1 r2 : ρ) :
    lookupExact (setItem (setItem (emptyNode (α := α)) K v1) K v2) K =
      .ok (some v2) ∧
    lookupExact ((readRT (emptyDual (α := List ρ)) [(K, r1), (K, r2)]).get K.version) K =
      .ok (some [r1, r2]) := by
  constructor
  · have hloc : KeysAtOwnPath (setItem (setItem (emptyNode (α := α)) K v1) K v2) :=
      loc_setItem (loc_setItem loc_empty K v1) K v2
    have hk : keyAt (setItem (setItem (emptyNode (α := α)) K v1) K v2)
        (netBits K) = some K :=
      (kvAt_insertAt_self (netBits K) (setItem (emptyNode (α := α)) K v1) K v2).1
    have hv := (kvAt_insertAt_self (netBits K) (setItem (emptyNode (α := α)) K v1) K v2).2
    rw [lookupExact_eq K hloc hk]
    exact congrArg Except.ok hv
  · have hget : (readRT (emptyDual (α := List ρ)) [(K, r1), (K, r2)]).get K.version =
        rtInsertTree (rtInsertTree emptyNode K r1) K r2 := by
      rw [show readRT (emptyDual (α := List ρ)) [(K, r1), (K, r2)] =
          rtInsert (rtInsert emptyDual K r1) K r2 from rfl]
      rw [rtInsert, get_set_same, rtInsert, get_set_same]
      rw [show (emptyDual (α := List ρ)).get K.version = emptyNode from by
        rw [emptyDual, DualTrees.get]; split <;> rfl]
    obtain ⟨hloc1, hother1, hkey1, hval1⟩ :=
      rtInsertTree_char (emptyNode (α := List ρ)) K r1 loc_empty
    have hval1b : valAt (rtInsertTree (emptyNode (α := List ρ)) K r1)
        (netBits K) = some [r1] := by
      rw [hval1, containsKey_empty K]
      simp
    obtain ⟨hloc2, hother2, hkey2, hval2⟩ :=
      rtInsertTree_char (rtInsertTree (emptyNode (α := List ρ)) K r1) K r2 hloc1
    have hc2 : containsKey (rtInsertTree (emptyNode (α := List ρ)) K r1) K = true :=
      (containsKey_iff K hloc1).mpr hkey1
    have hval2b : valAt (rtInsertTree (rtInsertTree (emptyNode (α := List ρ)) K r1) K r2)
        (netBits K) = some [r1, r2] := by
      rw [hval2, hc2, hval1b]
      simp
    rw [hget, lookupExact_eq K hloc2 hkey2]
    exact congrArg Except.ok hval2b

/-- C4 (counterexample): with the default route 0.0.0.0/0 inserted (value "A"),
the query 128.0.0.0/1 is fully contained in it (`subnetOf` confirms), yet
`findAll` yields no node at all and the longest-prefix lookup raises: the /0
value sits at the depth-one `zero` child, off the path of any 1-leading
query. -/
theorem C4_cex :
    subnetOf half1 dfl4 = .ok true ∧
    (findAll (buildTrie [(dfl4, "A")]) (netBits half1)).length = 0 ∧
    lookupLongestPfx (buildTrie [(dfl4, "A")]) (netBits half1) = .error "KeyError" := by
  decide

/-- C4 (amended): for every inserted prefix P of length ≥ 1 (distinct insertion
paths) and every same-family query Q fully contained in P, `findAll(Q)` yields
P's node carrying P's key and value, and `findLongestPrefix(Q)` is the last
(deepest) node of the `findAll` chain. -/
theorem C4_findAll_containment {α : Type} (entries : List (Net × α)) (P Q : Net) (v : α)
    (hnd : (entries.map (fun e => netBits e.1)).Nodup)
    (hmem : (P, v) ∈ entries)
    (hP : P.WF) (hQ : Q.WF) (hvv : Q.version = P.version) (h1 : 1 ≤ P.plen)
    (hsub : subnetOf Q P = .ok true) :
    (∃ n ∈ findAll (buildTrie entries) (netBits Q),
        n.key = some P ∧ n.value = some v) ∧
    findLongestPfx (buildTrie entries) (netBits Q) =
      (findAll (buildTrie entries) (netBits Q)).getLast? := by
  obtain ⟨hple, hpre⟩ := (subnetOf_iff_bits hQ hP hvv h1).mp hsub
  obtain ⟨n, _, hkey, hval, hmemT⟩ :=
    node_on_path hnd hmem h1 hP.2.1 hpre
  refine ⟨⟨n, ?_, hkey, hval⟩, findLongestPfx_eq_getLast _ _⟩
  rw [findAll, List.mem_filter]
  exact ⟨hmemT, by rw [hval]; rfl⟩

/-- C4 (witness): spec scenario 1 — insert 192.168.0.0/16 → "A" and
192.168.1.0/24 → "B"; query 192.168.1.5. -/
theorem C4_findAll_containment_witness :
    ((([(n16, "A"), (n24, "B")] : List (Net × String)).map
        (fun e => netBits e.1)).Nodup ∧
      (n16, "A") ∈ ([(n16, "A"), (n24, "B")] : List (Net × String)) ∧
      n16.WF ∧ a15.WF ∧ a15.version = n16.version ∧ 1 ≤ n16.plen ∧
      subnetOf a15 n16 = .ok true) ∧
    ((∃ n ∈ findAll (buildTrie [(n16, "A"), (n24, "B")]) (netBits a15),
        n.key = some n16 ∧ n.value = some "A") ∧
      findLongestPfx (buildTrie [(n16, "A"), (n24, "B")]) (netBits a15) =
        (findAll (buildTrie [(n16, "A"), (n24, "B")]) (netBits a15)).getLast?) :=
  ⟨⟨by decide, by decide, by decide, by decide, by decide, by decide, by decide⟩,
    C4_findAll_containment [(n16, "A"), (n24, "B")] n16 a15 "A" (by decide) (by decide)
      (by decide) (by decide) (by decide) (by decide) (by decide)⟩

/-- C5: a VRP tuple stored at a node on the announced prefix's trie path is
yielded by `matchPfx` iff the announced prefix length is at most the tuple's
maxLength or the announced network is a single address. -/
theorem C5_matchPfx_maxlen_filter (d : DualTrees (List VRP)) (inpfx : Net) (tup : VRP)
    (hstored : ∃ n ∈ traversePath (d.get inpfx.version) (netBits inpfx),
      tup ∈ n.value.getD []) :
    tup ∈ matchPfx d inpfx ↔
      (inpfx.plen ≤ tup.ml ∨ inpfx.numAddresses = 1) := by
  rw [matchPfx]
  constructor
  · intro h
    rw [List.mem_flatMap] at h
    obtain ⟨n, _, hmem⟩ := h
    have := List.mem_filter.mp hmem
    simpa using this.2
  · intro h
    obtain ⟨n, hn, htup⟩ := hstored
    rw [List.mem_flatMap]
    exact ⟨n, hn, List.mem_filter.mpr ⟨htup, by simpa using h⟩⟩

/-- C5 (witness): spec scenario 3 — VRP (10.0.0.0/8, maxLength 16); announced
10.0.0.0/16 yields the tuple, announced 10.0.0.0/24 yields nothing. -/
theorem C5_matchPfx_maxlen_filter_witness :
    (∃ n ∈ traversePath ((readVRPSRows emptyDual [vrp1]).get pfx16.version)
        (netBits pfx16), vrp1 ∈ n.value.getD []) ∧
    (vrp1 ∈ matchPfx (readVRPSRows emptyDual [vrp1]) pfx16 ↔
      (pfx16.plen ≤ vrp1.ml ∨ pfx16.numAddresses = 1)) ∧
    (pfx16.plen ≤ vrp1.ml ∨ pfx16.numAddresses = 1) ∧
    matchPfx (readVRPSRows emptyDual [vrp1]) pfx24 = [] :=
  ⟨by decide, C5_matchPfx_maxlen_filter _ _ _ (by decide), by decide, by decide⟩

/-- C6 (counterexample): the singleton set {0.0.0.0/0 → "d"} is non-overlapping
and tie-free; on query 128.0.0.1 the Linear Scanner returns the default route
while the trie misses (KeyError).  A mixed-family table moreover makes the
scanner raise `TypeError`, so the amended statement also restricts to
same-family entries. -/
theorem C6_cex :
    linMatchBest (buildTable [(dfl4, "d")]) addrB1 = .ok (some dfl4, some "d") ∧
    lookupLongestPfx (buildTrie [(dfl4, "d")]) (netBits addrB1) = .error "KeyError" ∧
    linMatch [(v6pfx, "v6")] addrB1 = .error "TypeError" := by
  decide

/-- C6 (amended): for every same-family set of pairwise non-overlapping
prefixes of length ≥ 1, inserted identically into both strategies, and every
same-family query of length ≥ 1, the Linear Scanner's `matchBest` and the
trie's `findLongestPrefix` agree: both miss, or both return the same prefix
and value. -/
theorem C6_two_strategy_equiv {β : Type} (entries : List (Net × β)) (q : Net)
    (hwf : ∀ e ∈ entries, (e.1).WF)
    (hver : ∀ e ∈ entries, e.1.version = q.version)
    (hplen : ∀ e ∈ entries, 1 ≤ e.1.plen)
    (hq : q.WF) (hq1 : 1 ≤ q.plen)
    (hpair : entries.Pairwise (fun e1 e2 =>
      subnetOf e1.1 e2.1 ≠ .ok true ∧ subnetOf e2.1 e1.1 ≠ .ok true)) :
    linMatchBest (buildTable entries) q =
      .ok ((findLongestPfx (buildTrie entries) (netBits q)).elim
        ((none : Option Net), (none : Option β)) (fun n => (n.key, n.value))) := by
  have hkeynd : (entries.map (fun e => e.1)).Nodup :=
    List.pairwise_map.mpr (hpair.imp (fun h heq => h.1 (by rw [heq]; exact subnetOf_refl _)))
  have hnd : (entries.map (fun e => netBits e.1)).Nodup := by
    refine List.pairwise_map.mpr (List.Pairwise.imp_of_mem ?_ hpair)
    intro a b ha hb hab heq
    have hba : a.1 = b.1 := netBits_inj (hwf a ha) (hwf b hb)
      ((hver a ha).trans (hver b hb).symm) (hplen a ha) (hplen b hb) heq
    exact hab.1 (by rw [hba]; exact subnetOf_refl _)
  have hcond : ∀ e ∈ entries,
      ((decide (e.1.addr ≤ q.addr) && decide (q.bcast ≤ e.1.bcast)) = true ↔
        netBits e.1 <+: netBits q) := by
    intro e he
    have hiff := subnetOf_iff_bits hq (hwf e he) (hver e he).symm (hplen e he)
    rw [subnetOf_iff_num (hver e he).symm] at hiff
    constructor
    · intro h
      exact (hiff.mp (by simpa using h)).2
    · intro hpre
      have h1 := netBits_length e.1 (hplen e he) (hwf e he).2.1
      have h2 := netBits_length q hq1 hq.2.1
      have h3 := hpre.length_le
      have hple : e.1.plen ≤ q.plen := by omega
      have := hiff.mpr ⟨hple, hpre⟩
      simpa using this
  cases hfl : entries.filter
      (fun e => decide (e.1.addr ≤ q.addr) && decide (q.bcast ≤ e.1.bcast)) with
  | nil =>
    have htbl : linMatchBest (buildTable entries) q = .ok (none, none) := by
      rw [buildTable_eq_of_nodup hkeynd]
      exact linMatchBest_of_filter_nil hver hfl
    have hnone : findLongestPfx (buildTrie entries) (netBits q) = none := by
      rw [findLongestPfx_none_iff]
      intro i hi
      refine (kvAt_buildTrie_none ?_).2
      intro e he heq
      have hpre : netBits e.1 <+: netBits q := heq ▸ List.take_prefix _ _
      have hc := (hcond e he).mpr hpre
      have hmf : e ∈ entries.filter
          (fun e => decide (e.1.addr ≤ q.addr) && decide (q.bcast ≤ e.1.bcast)) :=
        List.mem_filter.mpr ⟨he, hc⟩
      rw [hfl] at hmf
      exact absurd hmf (by simp)
    rw [htbl, hnone]
    rfl
  | cons e es =>
    have hee : e ∈ entries.filter
        (fun x => decide (x.1.addr ≤ q.addr) && decide (q.bcast ≤ x.1.bcast)) := by
      rw [hfl]; exact List.mem_cons_self _ _
    have hemem : e ∈ entries := (List.mem_filter.mp hee).1
    have hecond := (List.mem_filter.mp hee).2
    have hes : es = [] := by
      cases hcs : es with
      | nil => rfl
      | cons x xs =>
        have hpf := hpair.filter
          (fun x => decide (x.1.addr ≤ q.addr) && decide (q.bcast ≤ x.1.bcast))
        rw [hfl, hcs] at hpf
        have hR := (List.pairwise_cons.mp hpf).1 x (List.mem_cons_self _ _)
        have hxf : x ∈ entries.filter
            (fun x => decide (x.1.addr ≤ q.addr) && decide (q.bcast ≤ x.1.bcast)) := by
          rw [hfl, hcs]; simp
        have hxmem : x ∈ entries := (List.mem_filter.mp hxf).1
        have hxcond := (List.mem_filter.mp hxf).2
        have hpe : netBits e.1 <+: netBits q := (hcond e hemem).mp hecond
        have hpx : netBits x.1 <+: netBits q := (hcond x hxmem).mp hxcond
        have hlen_e := netBits_length e.1 (hplen e hemem) (hwf e hemem).2.1
        have hlen_x := netBits_length x.1 (hplen x hxmem) (hwf x hxmem).2.1
        rcases List.prefix_or_prefix_of_prefix hpe hpx with hcc | hcc
        · have hple : e.1.plen ≤ x.1.plen := by
            have := hcc.length_le
            omega
          have hsx : subnetOf x.1 e.1 = .ok true :=
            (subnetOf_iff_bits (hwf x hxmem) (hwf e hemem)
              ((hver x hxmem).trans (hver e hemem).symm) (hplen e hemem)).mpr
              ⟨hple, hcc⟩
          exact absurd hsx hR.2
        · have hple : x.1.plen ≤ e.1.plen := by
            have := hcc.length_le
            omega
          have hsx : subnetOf e.1 x.1 = .ok true :=
            (subnetOf_iff_bits (hwf e hemem) (hwf x hxmem)
              ((hver e hemem).trans (hver x hxmem).symm) (hplen x hxmem)).mpr
              ⟨hple, hcc⟩
          exact absurd hsx hR.1
    subst hes
    have htbl : linMatchBest (buildTable entries) q = .ok (some e.1, some e.2) := by
      rw [buildTable_eq_of_nodup hkeynd]
      exact linMatchBest_of_filter_single hver hfl
    have hpe : netBits e.1 <+: netBits q := (hcond e hemem).mp hecond
    obtain ⟨n, hn, hkey, hval, hmemT⟩ :=
      node_on_path hnd (show (e.1, e.2) ∈ entries from by simpa using hemem)
        (hplen e hemem) (hwf e hemem).2.1 hpe
    have hmemF : n ∈ findAll (buildTrie entries) (netBits q) := by
      rw [findAll, List.mem_filter]
      exact ⟨hmemT, by rw [hval]; rfl⟩
    have hall : ∀ m ∈ findAll (buildTrie entries) (netBits q), m = n := by
      intro m hm
      rw [findAll, List.mem_filter] at hm
      obtain ⟨hmt, hmv⟩ := hm
      obtain ⟨i, hi, hni⟩ := mem_traverse_iff.mp hmt
      obtain ⟨vm, hvm⟩ := Option.isSome_iff_exists.mp hmv
      have hvat : valAt (buildTrie entries) ((netBits q).take (i + 1)) = some vm := by
        rw [valAt, hni]
        simpa using hvm
      obtain ⟨p2, hp2mem, hp2bits⟩ := valAt_buildTrie_some hvat
      have hpre2 : netBits p2 <+: netBits q := hp2bits ▸ List.take_prefix _ _
      have hcnd2 := (hcond (p2, vm) hp2mem).mpr hpre2
      have hmf2 : (p2, vm) ∈ entries.filter
          (fun x => decide (x.1.addr ≤ q.addr) && decide (q.bcast ≤ x.1.bcast)) :=
        List.mem_filter.mpr ⟨hp2mem, hcnd2⟩
      rw [hfl] at hmf2
      have he2 : (p2, vm) = e := by simpa using hmf2
      have hpath : (netBits q).take (i + 1) = netBits e.1 := by
        rw [← hp2bits, ← he2]
      rw [hpath, hn] at hni
      exact (Option.some.inj hni).symm
    have hlast : (findAll (buildTrie entries) (netBits q)).getLast? = some n :=
      getLast?_of_all_eq hmemF hall
    rw [htbl, findLongestPfx_eq_getLast, hlast]
    simp only [Option.elim]
    rw [hkey, hval]

/-- C6 (witness): two disjoint prefixes, query 10.0.0.1 — both strategies
return (10.0.0.0/8, 1). -/
theorem C6_two_strategy_equiv_witness :
    ((∀ e ∈ ([(K10, 1), (n16, 2)] : List (Net × Nat)), (e.1).WF ∧
        e.1.version = addrA1.version ∧ 1 ≤ e.1.plen) ∧
      addrA1.WF ∧ 1 ≤ addrA1.plen ∧
      ([(K10, 1), (n16, 2)] : List (Net × Nat)).Pairwise (fun e1 e2 =>
        subnetOf e1.1 e2.1 ≠ .ok true ∧ subnetOf e2.1 e1.1 ≠ .ok true)) ∧
    linMatchBest (buildTable [(K10, 1), (n16, 2)]) addrA1 =
      .ok ((findLongestPfx (buildTrie [(K10, 1), (n16, 2)]) (netBits addrA1)).elim
        ((none : Option Net), (none : Option Nat)) (fun n => (n.key, n.value))) :=
  ⟨⟨by decide, by decide, by decide, by decide⟩,
    C6_two_strategy_equiv [(K10, 1), (n16, 2)] addrA1
      (fun e he => (by revert e he; decide))
      (fun e he => (by revert e he; decide))
      (fun e he => (by revert e he; decide))
      (by decide) (by decide) (by decide)⟩

/-- C7 (counterexample): the default route 0.0.0.0/0 — an ancestor of every
IPv4 address, as `subnetOf` confirms for 128.0.0.1 — is inserted, yet
`matchIP` still signals `KeyError`, so "exactly when no ancestor prefix was
ever inserted" fails. -/
theorem C7_cex :
    subnetOf addrB1 dfl4 = .ok true ∧
    matchIP (readRT emptyDual [(dfl4, "defaultroute")]) addrB1 =
      .error "KeyError" := by
  decide

/-- C7 (amended): provided every inserted prefix has length ≥ 1, `matchIP`
signals `KeyError` exactly when no inserted prefix contains the address
(rows of other families are dispatched to the other tree and never contain
the address); on an entirely empty index the same `KeyError` is signalled. -/
theorem C7_matchIP_keyerror_iff (rows : List (Net × ρ)) (a : Net)
    (hwf : ∀ e ∈ rows, (e.1).WF) (hplen : ∀ e ∈ rows, 1 ≤ e.1.plen)
    (ha : a.WF) (haddr : a.plen = netWidth a.version) :
    (matchIP (readRT emptyDual rows) a = .error "KeyError" ↔
      ¬∃ e ∈ rows, subnetOf a e.1 = .ok true) ∧
    matchIP (emptyDual (α := List ρ)) a = .error "KeyError" := by
  refine ⟨?_, matchIP_emptyDual a⟩
  have hV : a.version = 4 ∨ a.version = 6 := ha.1
  have hget := readRT_get_filter rows emptyDual a.version hV (fun e he => (hwf e he).1)
  have hge : (emptyDual (α := List ρ)).get a.version = emptyNode := by
    rw [emptyDual, DualTrees.get]; split <;> rfl
  rw [matchIP, hget, hge, lookupLongestPfx_error_iff, findLongestPfx_none_iff]
  obtain ⟨hloc, hiff⟩ := rtFold_char
    (rows.filter (fun e => decide (e.1.version = a.version)))
    (emptyNode (α := List ρ)) loc_empty
  have hlenA : (addrBits a).length = netWidth a.version := by
    rw [addrBits_eq, bitsOfNat_length]
  have hnb : netBits a = addrBits a := netBits_eq_addrBits haddr
  constructor
  · intro h hex
    obtain ⟨e, he, hsub⟩ := hex
    have hev : a.version = e.1.version := subnetOf_ok_version hsub
    have he2 : e ∈ rows.filter (fun e => decide (e.1.version = a.version)) :=
      List.mem_filter.mpr ⟨he, by simpa using hev.symm⟩
    obtain ⟨hple, hpre⟩ :=
      (subnetOf_iff_bits ha (hwf e he) hev (hplen e he)).mp hsub
    rw [hnb] at hpre
    have hlenE := netBits_length e.1 (hplen e he) (hwf e he).2.1
    have hlenle := hpre.length_le
    rw [hlenE, hlenA] at hlenle
    have htake : (addrBits a).take (e.1.plen - 1 + 1) = netBits e.1 := by
      have h0 := List.prefix_iff_eq_take.mp hpre
      rw [hlenE] at h0
      rw [show e.1.plen - 1 + 1 = e.1.plen from by have := hplen e he; omega]
      exact h0.symm
    have hi : e.1.plen - 1 < (addrBits a).length := by
      rw [hlenA]
      have := hplen e he
      omega
    have hcontra := h (e.1.plen - 1) hi
    have hsome : (valAt (rtFold (emptyNode (α := List ρ))
        (rows.filter (fun e => decide (e.1.version = a.version))))
        ((addrBits a).take (e.1.plen - 1 + 1))).isSome := by
      rw [hiff]
      right
      exact ⟨e, he2, by rw [htake]⟩
    rw [hcontra] at hsome
    exact absurd hsome (by simp)
  · intro h i hi
    cases hv : valAt (rtFold (emptyNode (α := List ρ))
        (rows.filter (fun e => decide (e.1.version = a.version))))
        ((addrBits a).take (i + 1)) with
    | none => rfl
    | some v =>
      have hsome : (valAt (rtFold (emptyNode (α := List ρ))
          (rows.filter (fun e => decide (e.1.version = a.version))))
          ((addrBits a).take (i + 1))).isSome := by
        rw [hv]; rfl
      rw [hiff] at hsome
      rcases hsome with hemp | ⟨e, he2, hbits⟩
      · rw [(kvAt_empty _).2] at hemp
        exact absurd hemp (by simp)
      · have hmf := List.mem_filter.mp he2
        have he : e ∈ rows := hmf.1
        have hev : e.1.version = a.version := by simpa using hmf.2
        refine absurd ⟨e, he, ?_⟩ h
        refine (subnetOf_iff_bits ha (hwf e he) hev.symm (hplen e he)).mpr
          ⟨?_, ?_⟩
        · have hlenE := netBits_length e.1 (hplen e he) (hwf e he).2.1
          have hlt : (netBits e.1).length = ((addrBits a).take (i + 1)).length := by
            rw [hbits]
          rw [hlenE, List.length_take, hlenA] at hlt
          rw [haddr]
          rw [hlenA] at hi
          omega
        · rw [hnb, hbits]
          exact List.take_prefix _ _

/-- C7 (witness): a mixed-family table (10.0.0.0/8 and ::/8); the v4 address
10.0.0.1 is covered by the v4 row, so `matchIP` does not error; both
conjuncts instantiated concretely. -/
theorem C7_matchIP_keyerror_iff_witness :
    ((∀ e ∈ ([(K10, "r"), (v6pfx, "r6")] : List (Net × String)),
        (e.1).WF ∧ 1 ≤ e.1.plen) ∧
      addrA1.WF ∧ addrA1.plen = netWidth addrA1.version) ∧
    ((matchIP (readRT emptyDual [(K10, "r"), (v6pfx, "r6")]) addrA1 =
        .error "KeyError" ↔
      ¬∃ e ∈ ([(K10, "r"), (v6pfx, "r6")] : List (Net × String)),
          subnetOf addrA1 e.1 = .ok true) ∧
      matchIP (emptyDual (α := List String)) addrA1 = .error "KeyError") :=
  ⟨⟨by decide, by decide, by decide⟩,
    C7_matchIP_keyerror_iff [(K10, "r"), (v6pfx, "r6")] addrA1 (by decide)
      (by decide) (by decide) (by decide)⟩

/-- C8 (counterexample): `_read_linux_rt` re-raises (`except: raise`), so one
malformed line aborts the read; the well-formed second line on its own is
accepted, showing it was lost, not skipped. -/
theorem C8_cex :
    readLinuxRT parseFx ["garbage line", "10.0.0.0/8 dev eth0"] =
      .error "ValueError" ∧
    readLinuxRT parseFx ["10.0.0.0/8 dev eth0"] =
      .ok [(K10, "10.0.0.0/8 dev eth0")] := by
  decide

/-- C8 (amended): the VRP CSV reader and the generic CSV reader skip a
malformed row individually and ingest everything around it; the Linux
route-table reader instead propagates the failure of its first malformed
line, aborting the remaining input. -/
theorem C8_row_sources (pn : String → Option Net) (pint : String → Option Nat)
    (pre post : List (List String)) (bad : List String)
    (hbad : parseVrpsRow pn pint bad = none)
    (pre2 post2 : List (List String)) (bad2 : List String)
    (hbad2 : csvRowIP pn bad2 = none)
    (ls : List String) (l0 : String)
    (hl0 : String.mk (firstTok (pyStrip l0).data) ≠ "default")
    (hp0 : pn (String.mk (firstTok (pyStrip l0).data)) = none) :
    readVrpsFile pn pint (pre ++ bad :: post) =
      readVrpsFile pn pint pre ++ readVrpsFile pn pint post ∧
    readCsvFile pn (pre2 ++ bad2 :: post2) =
      readCsvFile pn pre2 ++ readCsvFile pn post2 ∧
    readLinuxRT pn (l0 :: ls) = .error "ValueError" := by
  refine ⟨?_, ?_, ?_⟩
  · rw [readVrpsFile, List.filterMap_append, List.filterMap_cons, hbad]
    rfl
  · rw [readCsvFile, List.filterMap_append, List.filterMap_cons,
      show (csvRowIP pn bad2).map (fun a => (a, bad2)) = none from by rw [hbad2]; rfl]
    rfl
  · have hline : lrtLine pn l0 = .error "ValueError" := by
      simp only [lrtLine]
      rw [if_neg hl0, hp0]
    rw [readLinuxRT, List.mapM_cons, hline]
    rfl

/-- C8 (witness): concrete well-formed and malformed rows for all three
readers. -/
theorem C8_row_sources_witness :
    (parseVrpsRow parseFx (fun s => s.toNat?) ["bad"] = none ∧
      csvRowIP parseFx ["garbage"] = none ∧
      String.mk (firstTok (pyStrip "garbage line").data) ≠ "default" ∧
      parseFx (String.mk (firstTok (pyStrip "garbage line").data)) = none) ∧
    (readVrpsFile parseFx (fun s => s.toNat?)
        ([["AS1", "10.0.0.0/8", "16", "apnic"]] ++
          ["bad"] :: [["AS2", "10.0.0.0/8", "24", "ripe"]]) =
      readVrpsFile parseFx (fun s => s.toNat?) [["AS1", "10.0.0.0/8", "16", "apnic"]] ++
        readVrpsFile parseFx (fun s => s.toNat?) [["AS2", "10.0.0.0/8", "24", "ripe"]] ∧
    readCsvFile parseFx ([["x", "10.0.0.0/8"]] ++ ["garbage"] :: []) =
      readCsvFile parseFx [["x", "10.0.0.0/8"]] ++ readCsvFile parseFx [] ∧
    readLinuxRT parseFx ("garbage line" :: ["10.0.0.0/8 dev eth0"]) =
      .error "ValueError") :=
  ⟨⟨by decide, by decide, by decide, by decide⟩,
    C8_row_sources parseFx (fun s => s.toNat?)
      [["AS1", "10.0.0.0/8", "16", "apnic"]] [["AS2", "10.0.0.0/8", "24", "ripe"]]
      ["bad"] (by decide)
      [["x", "10.0.0.0/8"]] [] ["garbage"] (by decide)
      ["10.0.0.0/8 dev eth0"] "garbage line" (by decide) (by decide)⟩

/-- C9 (counterexample): querying a family-6 key against a family-4-only
Linear Scanner table raises `TypeError` out of `subnet_of`, not a typed
NotFound/empty result. -/
theorem C9_cex :
    linMatch [(K10, "v4data")] v6host = .error "TypeError" := by
  decide

/-- C9 (amended): for distinct families V ≠ W among {4, 6}, the trie-based
dual-stack index answers a family-W query against family-V-only contents with
the typed `KeyError` (its empty family-W tree), never a cross-family match —
covering both the family-6-query/family-4-contents direction and the
symmetric one; the Linear Scanner's scan instead raises `TypeError` at the
first cross-family comparison. -/
theorem C9_cross_family (V W : Nat) (hV : V = 4 ∨ V = 6) (hW : W = 4 ∨ W = 6)
    (hVW : V ≠ W) (rows : List (Net × ρ)) (a : Net)
    (hver : ∀ e ∈ rows, e.1.version = V) (ha : a.version = W)
    {β : Type} (table : List (Net × β)) (q : Net) (e0 : Net × β)
    (rest : List (Net × β)) (htbl : table = e0 :: rest)
    (hne : q.version ≠ e0.1.version) :
    matchIP (readRT emptyDual rows) a = .error "KeyError" ∧
    linMatch table q = .error "TypeError" := by
  constructor
  · obtain ⟨_, h2⟩ := readRT_get_fold rows emptyDual V hV hver
    rw [matchIP, ha, h2 W hW (Ne.symm hVW)]
    have hge : (emptyDual (α := List ρ)).get W = emptyNode := by
      rw [emptyDual, DualTrees.get]; split <;> rfl
    rw [hge, lookupLongestPfx_error_iff, findLongestPfx, traversePath_empty]
    rfl
  · subst htbl
    have hsub : subnetOf q e0.1 = .error "TypeError" := by
      rw [subnetOf, if_pos hne]
    rw [linMatch, hsub]
    rfl

/-- C9 (witness): both directions instantiated — family-4 rows against a
family-6 query, and family-6 rows against a family-4 query, on both
strategies. -/
theorem C9_cross_family_witness :
    ((∀ e ∈ ([(K10, "r")] : List (Net × String)), e.1.version = 4) ∧
      v6host.version = 6 ∧ v6host.version ≠ (K10, (5 : Nat)).1.version ∧
      (∀ e ∈ ([(v6pfx, "r6")] : List (Net × String)), e.1.version = 6) ∧
      addrA1.version = 4 ∧ addrA1.version ≠ (v6pfx, (7 : Nat)).1.version) ∧
    ((matchIP (readRT emptyDual [(K10, "r")]) v6host = .error "KeyError" ∧
        linMatch [(K10, (5 : Nat))] v6host = .error "TypeError") ∧
      (matchIP (readRT emptyDual [(v6pfx, "r6")]) addrA1 = .error "KeyError" ∧
        linMatch [(v6pfx, (7 : Nat))] addrA1 = .error "TypeError")) :=
  ⟨⟨by decide, by decide, by decide, by decide, by decide, by decide⟩,
    C9_cross_family 4 6 (Or.inl rfl) (Or.inr rfl) (by decide) [(K10, "r")]
      v6host (by decide) (by decide) [(K10, (5 : Nat))] v6host (K10, (5 : Nat))
      [] rfl (by decide),
    C9_cross_family 6 4 (Or.inr rfl) (Or.inl rfl) (by decide) [(v6pfx, "r6")]
      addrA1 (by decide) (by decide) [(v6pfx, (7 : Nat))] addrA1
      (v6pfx, (7 : Nat)) [] rfl (by decide)⟩

/-- C10 (counterexample): a table whose only prefix is of the other family
contains nothing that covers the v4 query, yet `matchBest` raises `TypeError`
instead of returning (None, None). -/
theorem C10_cex :
    subnetOf addrA1 v6pfx = .error "TypeError" ∧
    linMatchBest [(v6pfx, "x")] addrA1 = .error "TypeError" := by
  decide

/-- C10 (amended): when the table's prefixes are of the query's family and
none contains the query key, `matchBest` returns (None, None) without
raising; the trie's `lookupLongestPrefix` raises `KeyError` whenever
`findLongestPrefix` finds nothing — so callers must handle the two miss
behaviors differently. -/
theorem C10_miss_behavior {β : Type} (table : List (Net × β)) (q : Net)
    (hver : ∀ e ∈ table, e.1.version = q.version)
    (hnone : ∀ e ∈ table, subnetOf q e.1 = .ok false) :
    linMatchBest table q = .ok (none, none) ∧
    ∀ (t : IPTreeNode β) (bs : List Bool), findLongestPfx t bs = none →
      lookupLongestPfx t bs = .error "KeyError" := by
  constructor
  · refine linMatchBest_of_filter_nil hver ?_
    rw [List.filter_eq_nil_iff]
    intro e he hc
    have hcf : (decide (e.1.addr ≤ q.addr) && decide (q.bcast ≤ e.1.bcast)) = false := by
      have h2 := hnone e he
      rw [subnetOf, if_neg (fun h => h (hver e he).symm)] at h2
      exact Except.ok.inj h2
    rw [hcf] at hc
    exact nomatch hc
  · intro t bs h
    simp only [lookupLongestPfx, h]

/-- C10 (witness): 10.0.0.0/8 does not contain 192.168.1.5. -/
theorem C10_miss_behavior_witness :
    ((∀ e ∈ ([(K10, 7)] : List (Net × Nat)), e.1.version = a15.version) ∧
      (∀ e ∈ ([(K10, 7)] : List (Net × Nat)), subnetOf a15 e.1 = .ok false)) ∧
    (linMatchBest [(K10, 7)] a15 = .ok (none, none) ∧
      ∀ (t : IPTreeNode Nat) (bs : List Bool), findLongestPfx t bs = none →
        lookupLongestPfx t bs = .error "KeyError") :=
  ⟨⟨by decide, by decide⟩, C10_miss_behavior [(K10, 7)] a15 (by decide) (by decide)⟩
